import Mathlib

/-!
Shallow embedding of the styled-text document core of
`juce_UnicodeTextEditor.cpp` (UnicodeTextEditor): atoms, uniformly styled
runs ("sections"), the document-level insert / remove / reinsert /
coalesce operations, the forward-only layout iterator, and the undo
machinery, together with proofs settling the frozen claims about them.

Characters are modelled as `Char` (the source stores `juce_wchar`,
UTF-32 code points).  Strings (`juce::String`) are modelled as
`List Char`.  Display widths and font metrics (`float` in the source,
supplied by the host's measurement functions) are modelled as exact
rationals `ℚ` supplied through a `Metrics` record.  Character counts are
`ℕ`; the source stores an atom's count in a `uint16` field, so every
assignment to it is modelled with an explicit `% 2^16` (`u16` below).
Character indices handed to document operations are `int` in the source
and are modelled as `ℤ`.
-/

/-- Truncation to 16 bits: the source casts every value stored into
`TextAtom::numChars` to `juce::uint16`. -/
def u16 (n : ℕ) : ℕ := n % 65536

/-- The `juce_wchar()` null character returned by `juce::String` accessors
that run past the end of a string. -/
def jw0 : Char := Char.ofNat 0

/-- `juce::CharacterFunctions::isWhitespace`: a space, or a control
character between 9 (tab) and 13 (carriage return). -/
def isWsJ (c : Char) : Bool := c = ' ' || (9 ≤ c.toNat && c.toNat ≤ 13)

/-- `juce::String::getLastCharacter`: the last character, or the null
character for an empty string. -/
def lastCharJ (s : List Char) : Char := s.getLast?.getD jw0

/-- `juce::String::operator[] 0`: the first character, or the null
character for an empty string. -/
def headCharJ (s : List Char) : Char := s.headD jw0

/-- `juce::String::substring (start, end)`: clamps `start` up to 0 and
returns the empty string whenever `end ≤ start`. -/
def substringJ (s : List Char) (a b : ℤ) : List Char :=
  let a' := max a 0
  if b ≤ a' then [] else (s.drop a'.toNat).take (b - a').toNat

/-- `juce::String::substring (start)` (suffix from a nonnegative index,
as used by `UniformTextSection::split`). -/
def suffixJ (s : List Char) (a : ℕ) : List Char := s.drop a

/-- `juce::Range<int>` never holds `end < start`: its constructor clamps
the end up to the start (`end (jmax (startValue, endValue))`).  `mkRange`
models constructing a range from raw endpoints. -/
def mkRange (a b : ℤ) : ℤ × ℤ := (a, max a b)

/-- Host-supplied measurement capabilities (spec §6): string widths,
line height and descent per style token, and glyph-level extents used
when an oversized atom is chunked.  Fonts are opaque equality-comparable
tokens modelled as `ℕ`. -/
structure Metrics where
  stringWidth : ℕ → List Char → ℚ
  fontHeight : ℕ → ℚ
  fontDescent : ℕ → ℚ
  glyphRight : ℕ → List Char → ℕ → ℚ
  numGlyphs : ℕ → List Char → ℕ

/-- `TextAtom`: a word, whitespace run or newline that cannot be broken
down further.  `numChars` is stored in a `uint16` in the source. -/
structure TextAtom where
  atomText : List Char
  width : ℚ
  numChars : ℕ
deriving DecidableEq

/-- `TextAtom::isWhitespace`: tests the first character of the text. -/
def TextAtom.isWhitespace (a : TextAtom) : Bool := isWsJ (headCharJ a.atomText)

/-- `TextAtom::isNewLine`: the first character is `\r` or `\n`. -/
def TextAtom.isNewLine (a : TextAtom) : Bool :=
  headCharJ a.atomText = '\r' || headCharJ a.atomText = '\n'

/-- `TextAtom::getText`: the atom's text, or a same-length run of the
password character when one is set (`passwordCharacter == 0` disables
masking). -/
def TextAtom.getText (a : TextAtom) (passwordChar : Char) : List Char :=
  if passwordChar = jw0 then a.atomText
  else List.replicate a.atomText.length passwordChar

/-- Masked text of a raw character list (same convention as
`TextAtom.getText`, used while atoms are being built). -/
def maskedText (passwordChar : Char) (t : List Char) : List Char :=
  if passwordChar = jw0 then t else List.replicate t.length passwordChar

/-- `UniformTextSection`: a run of text with a single font and colour.
Colours are opaque equality-comparable tokens modelled as `ℕ`. -/
structure UniformTextSection where
  font : ℕ
  colour : ℕ
  atoms : List TextAtom
  passwordChar : Char
deriving DecidableEq

/-- Width cached in a freshly built atom
(`UniformTextSection::initialiseAtoms`): 0 for a newline atom, otherwise
the measured width of the (possibly masked) text. -/
def mkAtomWidth (M : Metrics) (font : ℕ) (passwordChar : Char)
    (t : List Char) : ℚ :=
  if headCharJ t = '\r' || headCharJ t = '\n' then 0
  else M.stringWidth font (maskedText passwordChar t)

/-- One atom as built by `UniformTextSection::initialiseAtoms`: the text
slice together with its `uint16` character count and cached width. -/
def mkAtom (M : Metrics) (font : ℕ) (passwordChar : Char)
    (t : List Char) : TextAtom :=
  { atomText := t
    width := mkAtomWidth M font passwordChar t
    numChars := u16 t.length }

/-- Character class used by the tokenizer's whitespace-run branch:
whitespace that is not `\r` and not `\n`. -/
def isWsNotNl (c : Char) : Bool := isWsJ c && !(c = '\r') && !(c = '\n')

/-- `UniformTextSection::initialiseAtoms`: scan left to right producing
atoms.  A maximal run of non-newline whitespace is one atom; a `\r`
optionally followed by `\n` is one newline atom (when the `\n` is
present the stored slice starts *after* the `\r`, so the atom's text is
just `"\n"` and its count is 1); a lone `\n` is one newline atom; any
other maximal run of non-whitespace characters is one word atom. -/
def initialiseAtoms (M : Metrics) (font : ℕ) (passwordChar : Char) :
    List Char → List TextAtom
  | [] => []
  | c :: cs =>
    if isWsNotNl c then
      mkAtom M font passwordChar (c :: cs.takeWhile isWsNotNl) ::
        initialiseAtoms M font passwordChar (cs.dropWhile isWsNotNl)
    else if c = '\r' then
      if cs.headD jw0 = '\n' then
        mkAtom M font passwordChar ['\n'] ::
          initialiseAtoms M font passwordChar cs.tail
      else
        mkAtom M font passwordChar ['\r'] ::
          initialiseAtoms M font passwordChar cs
    else if c = '\n' then
      mkAtom M font passwordChar ['\n'] ::
        initialiseAtoms M font passwordChar cs
    else
      mkAtom M font passwordChar (c :: cs.takeWhile (fun x => !isWsJ x)) ::
        initialiseAtoms M font passwordChar (cs.dropWhile (fun x => !isWsJ x))
termination_by l => l.length
decreasing_by
  all_goals simp only [List.length_cons]
  · exact Nat.lt_succ_of_le (List.dropWhile_sublist _).length_le
  · exact Nat.lt_succ_of_le (List.length_tail _ ▸ Nat.sub_le _ _)
  · omega
  · omega
  · exact Nat.lt_succ_of_le (List.dropWhile_sublist _).length_le

/-- The `UniformTextSection` constructor: tokenize the text under the
given style. -/
def mkSection (M : Metrics) (text : List Char) (font colour : ℕ)
    (passwordChar : Char) : UniformTextSection :=
  { font := font, colour := colour, passwordChar := passwordChar
    atoms := initialiseAtoms M font passwordChar text }

/-- `UniformTextSection::getTotalLength`: sum of the atoms' character
counts. -/
def UniformTextSection.getTotalLength (s : UniformTextSection) : ℕ :=
  (s.atoms.map TextAtom.numChars).sum

/-- `UniformTextSection::appendAllText`: the concatenation of the atoms'
raw texts. -/
def UniformTextSection.allText (s : UniformTextSection) : List Char :=
  (s.atoms.map TextAtom.atomText).flatten

/-- `UniformTextSection::append`: move `other`'s atoms onto this run; if
this run's last atom ends in a non-whitespace character and `other`'s
first atom starts with one, the two atoms are concatenated into a single
re-measured atom first (character counts add modulo 2^16). -/
def UniformTextSection.append (M : Metrics) (s1 s2 : UniformTextSection) :
    UniformTextSection :=
  match s2.atoms with
  | [] => s1
  | b :: bs =>
    match s1.atoms.getLast? with
    | none => { s1 with atoms := s1.atoms ++ b :: bs }
    | some la =>
      if !isWsJ (lastCharJ la.atomText) && !isWsJ (headCharJ b.atomText) then
        { s1 with atoms := s1.atoms.dropLast ++
            ({ atomText := la.atomText ++ b.atomText
               numChars := u16 (la.numChars + b.numChars)
               width := M.stringWidth s1.font
                 (maskedText s1.passwordChar (la.atomText ++ b.atomText)) } :: bs) }
      else { s1 with atoms := s1.atoms ++ b :: bs }

/-- Atom-list worker for `UniformTextSection::split`: walk the atoms
with a running character index; at an exact atom boundary move the whole
tail, inside an atom cut its text (each half re-measured, counts stored
through the `uint16` cast); if the offset is never reached nothing moves.
Returns (atoms kept in place, atoms moved to the new section). -/
def splitAtoms (M : Metrics) (font : ℕ) (passwordChar : Char) (k : ℤ) :
    ℤ → List TextAtom → List TextAtom × List TextAtom
  | _, [] => ([], [])
  | index, a :: rest =>
    if index = k then ([], a :: rest)
    else if k ≥ index ∧ k < index + (a.numChars : ℤ) then
      let off := (k - index).toNat
      let rightText := suffixJ a.atomText off
      let leftText := a.atomText.take off
      ([{ atomText := leftText
          width := M.stringWidth font (maskedText passwordChar leftText)
          numChars := u16 (k - index).toNat }],
       { atomText := rightText
         width := M.stringWidth font (maskedText passwordChar rightText)
         numChars := u16 rightText.length } :: rest)
    else
      let p := splitAtoms M font passwordChar k (index + (a.numChars : ℤ)) rest
      (a :: p.1, p.2)

/-- `UniformTextSection::split (indexToBreakAt)`: the run keeps the
atoms before the offset (splitting the atom containing it, if any) and a
new run with the same font, colour and password character receives the
rest. -/
def UniformTextSection.split (M : Metrics) (s : UniformTextSection)
    (k : ℤ) : UniformTextSection × UniformTextSection :=
  let p := splitAtoms M s.font s.passwordChar k 0 s.atoms
  ({ s with atoms := p.1 },
   { font := s.font, colour := s.colour, passwordChar := s.passwordChar
     atoms := p.2 })

/-- `UniformTextSection::appendSubstring`: per atom, intersect the
(shifted) range with the atom's count window and emit the corresponding
`substring` of its text; stop early once the range ends before the
current atom. -/
def appendSubstringAtoms (rs re : ℤ) : ℤ → List TextAtom → List Char
  | _, [] => []
  | index, a :: rest =>
    let nextIndex := index + (a.numChars : ℤ)
    if rs < nextIndex then
      if re ≤ index then []
      else
        let r1 := max (rs - index) 0
        let r2 := min (re - index) (a.numChars : ℤ)
        (if r1 = r2 then [] else substringJ a.atomText r1 r2) ++
          appendSubstringAtoms rs re nextIndex rest
    else appendSubstringAtoms rs re nextIndex rest

/-- `UnicodeTextEditor::getTotalNumChars`: the sum of the sections'
lengths.  (The source caches this with a `-1` staleness sentinel and
recomputes it lazily; the model recomputes it, which is the same
value.) -/
def getTotalNumChars (doc : List UniformTextSection) : ℕ :=
  (doc.map UniformTextSection.getTotalLength).sum

/-- `UnicodeTextEditor::getText`: concatenation of every section's
text. -/
def fullTextD (doc : List UniformTextSection) : List Char :=
  (doc.map UniformTextSection.allText).flatten

/-- Section loop of `UnicodeTextEditor::getTextInRange`: sections whose
window intersects the range contribute `appendSubstring (range - index)`;
the loop stops once the range ends before the current section. -/
def getTextInRangeGo (rs re : ℤ) : ℤ → List UniformTextSection → List Char
  | _, [] => []
  | index, s :: rest =>
    let nextIndex := index + (s.getTotalLength : ℤ)
    if rs < nextIndex then
      if re ≤ index then []
      else appendSubstringAtoms (rs - index) (re - index) 0 s.atoms ++
             getTextInRangeGo rs re nextIndex rest
    else getTextInRangeGo rs re nextIndex rest

/-- `UnicodeTextEditor::getTextInRange`: empty for an empty range,
otherwise the concatenated per-section extracts. -/
def getTextInRange (doc : List UniformTextSection) (r : ℤ × ℤ) :
    List Char :=
  if r.1 = r.2 then [] else getTextInRangeGo r.1 r.2 0 doc

/-- `UnicodeTextEditor::coalesceSimilarSections`: repeatedly `append` a
section's successor into it whenever the two have equal font and equal
colour (the source does this with an index that steps back after each
merge, which revisits the merged section against its new successor —
exactly this recursion). -/
def coalesceSimilarSections (M : Metrics) :
    List UniformTextSection → List UniformTextSection
  | [] => []
  | [s] => [s]
  | s1 :: s2 :: rest =>
    if s1.font = s2.font ∧ s1.colour = s2.colour then
      coalesceSimilarSections M (s1.append M s2 :: rest)
    else s1 :: coalesceSimilarSections M (s2 :: rest)
termination_by ss => ss.length
decreasing_by
  all_goals simp only [List.length_cons]
  · omega
  · omega

/-- Main loop of `UnicodeTextEditor::insert` (the branch that edits the
document directly): find the section containing `insertIndex`, splitting
it when the index falls strictly inside, and place the freshly tokenized
section there; returns the updated list together with the final value of
the loop's `nextIndex` variable (the source checks it against
`insertIndex` after the loop to append at the very end). -/
def insertGo (M : Metrics) (newSec : UniformTextSection) (insertIndex : ℤ) :
    ℤ → List UniformTextSection → List UniformTextSection × ℤ
  | index, [] => ([], index)
  | index, s :: rest =>
    let nextIndex := index + (s.getTotalLength : ℤ)
    if insertIndex = index then (newSec :: s :: rest, nextIndex)
    else if insertIndex > index ∧ insertIndex < nextIndex then
      let p := s.split M (insertIndex - index)
      (p.1 :: newSec :: p.2 :: rest, nextIndex)
    else
      let q := insertGo M newSec insertIndex nextIndex rest
      (s :: q.1, q.2)

/-- `UnicodeTextEditor::insert` with a null undo manager: no-op on empty
text, otherwise splice in a new tokenized section and coalesce.  (The
caret move, repaints and cache invalidation of the source do not touch
the section list.) -/
def insertOp (M : Metrics) (text : List Char) (insertIndex : ℤ)
    (font colour : ℕ) (passwordChar : Char)
    (doc : List UniformTextSection) : List UniformTextSection :=
  if text = [] then doc
  else
    let q := insertGo M (mkSection M text font colour passwordChar)
      insertIndex 0 doc
    coalesceSimilarSections M
      (if q.2 = insertIndex
       then q.1 ++ [mkSection M text font colour passwordChar]
       else q.1)

/-- Main loop of `UnicodeTextEditor::reinsert`: identical navigation to
`insert`, but splices in copies of the snapshot sections verbatim. -/
def reinsertGo (M : Metrics) (snap : List UniformTextSection)
    (insertIndex : ℤ) :
    ℤ → List UniformTextSection → List UniformTextSection × ℤ
  | index, [] => ([], index)
  | index, s :: rest =>
    let nextIndex := index + (s.getTotalLength : ℤ)
    if insertIndex = index then (snap ++ s :: rest, nextIndex)
    else if insertIndex > index ∧ insertIndex < nextIndex then
      let p := s.split M (insertIndex - index)
      (p.1 :: (snap ++ p.2 :: rest), nextIndex)
    else
      let q := reinsertGo M snap insertIndex nextIndex rest
      (s :: q.1, q.2)

/-- `UnicodeTextEditor::reinsert`: splice the snapshot sections back in
at `insertIndex` (appending at the end when the loop's final `nextIndex`
equals `insertIndex`, as the source's post-loop check does), then
coalesce. -/
def reinsertOp (M : Metrics) (insertIndex : ℤ)
    (snap : List UniformTextSection) (doc : List UniformTextSection) :
    List UniformTextSection :=
  let q := reinsertGo M snap insertIndex 0 doc
  coalesceSimilarSections M (if q.2 = insertIndex then q.1 ++ snap else q.1)

/-- Boundary-splitting phase of `UnicodeTextEditor::remove`: walk the
sections; when the range start falls strictly inside a section, split it
there and re-examine (the source decrements its loop index); likewise
for the range end; otherwise advance, stopping early once past the range
end.  The source's loop terminates because each boundary can be split at
most once on any document whose atom counts fit their `uint16` fields
(i.e. every document the program itself builds); `budget` counts the
splits still allowed and the model stops, like the loop would have, if a
corrupt document exceeds it. -/
def splitRunsF (M : Metrics) (rs re : ℤ) :
    ℕ → ℤ → List UniformTextSection → List UniformTextSection
  | _, _, [] => []
  | budget, index, s :: rest =>
    let nextIndex := index + (s.getTotalLength : ℤ)
    if rs > index ∧ rs < nextIndex then
      match budget with
      | 0 => s :: rest
      | b + 1 =>
        let p := s.split M (rs - index)
        splitRunsF M rs re b index (p.1 :: p.2 :: rest)
    else if re > index ∧ re < nextIndex then
      match budget with
      | 0 => s :: rest
      | b + 1 =>
        let p := s.split M (re - index)
        splitRunsF M rs re b index (p.1 :: p.2 :: rest)
    else if nextIndex > re then s :: rest
    else s :: splitRunsF M rs re budget nextIndex rest
termination_by budget _ ss => (budget, ss.length)
decreasing_by
  · exact Prod.Lex.left _ _ (Nat.lt_succ_self _)
  · exact Prod.Lex.left _ _ (Nat.lt_succ_self _)
  · exact Prod.Lex.right _ (by simp only [List.length_cons]; omega)

/-- The two boundaries are each split at most once, so a budget of 2
reproduces the source loop on every `uint16`-faithful document. -/
def splitRuns (M : Metrics) (rs re : ℤ)
    (doc : List UniformTextSection) : List UniformTextSection :=
  splitRunsF M rs re 2 0 doc

/-- Snapshot loop of `UnicodeTextEditor::remove` (undo-manager branch):
deep-copy every section now fully contained in the removed range; the
loop's first statement breaks outright when the range is degenerate. -/
def snapshotRuns (rs re : ℤ) :
    ℤ → List UniformTextSection → List UniformTextSection
  | _, [] => []
  | index, s :: rest =>
    if re ≤ rs then []
    else
      let nextIndex := index + (s.getTotalLength : ℤ)
      (if rs ≤ index ∧ re ≥ nextIndex then [s] else []) ++
        snapshotRuns rs re nextIndex rest

/-- Deletion loop of `UnicodeTextEditor::remove`: remove each section
fully contained in the remaining range, shrinking the range's end by the
removed length (`juce::Range::setEnd`; the new end never drops below the
start here) and stopping as soon as the remaining range becomes empty. -/
def deleteRuns (rs : ℤ) : ℤ → ℤ → List UniformTextSection →
    List UniformTextSection
  | _, _, [] => []
  | re, index, s :: rest =>
    let nextIndex := index + (s.getTotalLength : ℤ)
    if rs ≤ index ∧ re ≥ nextIndex then
      let re' := re - (nextIndex - index)
      if re' = rs then rest else deleteRuns rs re' index rest
    else s :: deleteRuns rs re nextIndex rest

/-- `UnicodeTextEditor::remove` with a null undo manager: nothing for an
empty range, otherwise split at both boundaries, delete the contained
sections, and coalesce. -/
def removeOp (M : Metrics) (rs re : ℤ) (doc : List UniformTextSection) :
    List UniformTextSection :=
  if rs = re then doc
  else coalesceSimilarSections M (deleteRuns rs re 0 (splitRuns M rs re doc))

/-- `UnicodeTextEditor::remove` through the undo manager, as far as the
document and the recorded action are concerned: split at the boundaries,
snapshot the contained sections, then let `RemoveAction::perform` run
`remove` with a null undo manager on the already-split document.
Returns the resulting document and the snapshot held by the action. -/
def removeWithSnap (M : Metrics) (rs re : ℤ)
    (doc : List UniformTextSection) :
    List UniformTextSection × List UniformTextSection :=
  if rs = re then (doc, [])
  else
    let d1 := splitRuns M rs re doc
    (removeOp M rs re d1, snapshotRuns rs re 0 d1)

/-- The two kinds of undoable action the editor records
(`InsertAction` / `RemoveAction`), as plain data. -/
inductive EditAction where
  | insertA (text : List Char) (insertIndex : ℤ) (font colour : ℕ)
      (oldCaretPos newCaretPos : ℤ)
  | removeA (rs re : ℤ) (oldCaretPos newCaretPos : ℤ)
      (removedSections : List UniformTextSection)
deriving DecidableEq

/-- The slice of `juce::UndoManager` state the editor relies on:
the open transaction, the closed transactions (newest first) and the
redo stack.  `juce::UndoManager` is an external JUCE collaborator
(spec §4.5): actions are grouped into transactions, `undo` rolls back
the newest transaction by invoking each action's `undo` in reverse
order, `redo` re-performs an undone transaction, and performing a new
action clears the redo stack. -/
structure UndoMgr where
  current : List EditAction
  committed : List (List EditAction)
  redoT : List (List EditAction)
deriving DecidableEq

/-- Editor state visible to the document-level claims: the section
list, the caret, the read-only and enabled flags, the password
character and the undo manager. -/
structure EditorState where
  sections : List UniformTextSection
  caretPosition : ℤ
  readOnly : Bool
  enabled : Bool
  passwordCharacter : Char
  um : UndoMgr
deriving DecidableEq

/-- `UnicodeTextEditor::isReadOnly`: the flag, or the component being
disabled. -/
def isReadOnlyE (st : EditorState) : Bool := st.readOnly || !st.enabled

/-- `UnicodeTextEditor::moveCaret`: clamp the requested caret position
into `[0, getTotalNumChars()]`. -/
def moveCaretClamp (pos : ℤ) (doc : List UniformTextSection) : ℤ :=
  if pos < 0 then 0 else min pos (getTotalNumChars doc : ℤ)

/-- `perform` of an action: `InsertAction::perform` runs the direct
insert, `RemoveAction::perform` runs the direct remove; both then move
the caret to the action's post-edit position. -/
def performAction (M : Metrics) (a : EditAction) (st : EditorState) :
    EditorState :=
  match a with
  | .insertA text idx f c _ newCaret =>
    let doc := insertOp M text idx f c st.passwordCharacter st.sections
    { st with sections := doc, caretPosition := moveCaretClamp newCaret doc }
  | .removeA rs re _ newCaret _ =>
    let doc := removeOp M rs re st.sections
    { st with sections := doc, caretPosition := moveCaretClamp newCaret doc }

/-- `undo` of an action: `InsertAction::undo` removes the inserted
range, `RemoveAction::undo` reinserts the snapshot at the range start;
both restore the pre-edit caret. -/
def undoAction (M : Metrics) (a : EditAction) (st : EditorState) :
    EditorState :=
  match a with
  | .insertA text idx _ _ oldCaret _ =>
    let doc := removeOp M idx (idx + (text.length : ℤ)) st.sections
    { st with sections := doc, caretPosition := moveCaretClamp oldCaret doc }
  | .removeA rs _ oldCaret _ removed =>
    let doc := reinsertOp M rs removed st.sections
    { st with sections := doc, caretPosition := moveCaretClamp oldCaret doc }

/-- `juce::UndoManager::beginNewTransaction`: close the open
transaction (nothing happens when it is empty). -/
def beginNewTransactionU (u : UndoMgr) : UndoMgr :=
  if u.current = [] then u
  else { current := [], committed := u.current :: u.committed, redoT := u.redoT }

/-- `UnicodeTextEditor::newTransaction` (the timestamp it also records
does not affect the document). -/
def newTransactionE (st : EditorState) : EditorState :=
  { st with um := beginNewTransactionU st.um }

/-- `juce::UndoManager::perform`: execute the action, append it to the
open transaction, and drop any redoable transactions. -/
def performUM (M : Metrics) (a : EditAction) (st : EditorState) :
    EditorState :=
  let st' := performAction M a st
  { st' with um := { current := st.um.current ++ [a],
                     committed := st.um.committed, redoT := [] } }

/-- `juce::UndoManager::undo`: roll back the newest transaction (the
open one if any, else the newest closed one) by undoing its actions in
reverse order, moving it to the redo stack. -/
def umUndoE (M : Metrics) (st : EditorState) : Bool × EditorState :=
  match (if st.um.current = [] then st.um.committed
         else st.um.current :: st.um.committed) with
  | [] => (false, st)
  | g :: rest =>
    let st' := g.reverse.foldl (fun s a => undoAction M a s) st
    (true, { st' with um := { current := [], committed := rest,
                              redoT := g :: st.um.redoT } })

/-- `juce::UndoManager::redo`: re-perform the newest undone transaction,
moving it back to the undo stack. -/
def umRedoE (M : Metrics) (st : EditorState) : Bool × EditorState :=
  match st.um.redoT with
  | [] => (false, st)
  | g :: rest =>
    let st' := g.foldl (fun s a => performAction M a s) st
    (true, { st' with um := { current := [],
                              committed := g :: st.um.committed,
                              redoT := rest } })

/-- `UnicodeTextEditor::undoOrRedo`: a read-only editor does nothing and
reports `false`; otherwise a new transaction is begun and the undo
manager's `undo` / `redo` is attempted (the repaint and notifications on
success do not affect the state modelled here). -/
def undoOrRedo (M : Metrics) (shouldUndo : Bool) (st : EditorState) :
    Bool × EditorState :=
  if !(isReadOnlyE st) then
    let st1 := newTransactionE st
    let r := if shouldUndo then umUndoE M st1 else umRedoE M st1
    if r.1 then (true, r.2) else (false, st1)
  else (false, st)

/-- `UnicodeTextEditor::insert` with a non-null undo manager: no-op on
empty text; a new transaction is begun when the open one holds more than
`maxActionsPerTransaction` (100) actions; then an `InsertAction`
recording the current caret is performed through the manager. -/
def insertWithUndo (M : Metrics) (text : List Char) (insertIndex : ℤ)
    (font colour : ℕ) (caretPositionToMoveTo : ℤ) (st : EditorState) :
    EditorState :=
  if text = [] then st
  else
    let st0 := if 100 < st.um.current.length then newTransactionE st else st
    performUM M
      (.insertA text insertIndex font colour st0.caretPosition
        caretPositionToMoveTo) st0

/-- Text carried by a list of atoms. -/
def atomsText (as : List TextAtom) : List Char :=
  (as.map TextAtom.atomText).flatten

/-- A well-formed atom caches its real character count (the data-model
invariant of spec §3; every atom the program itself builds satisfies it
as long as its text is shorter than 2^16 characters). -/
def wfAtom (a : TextAtom) : Prop := a.numChars = a.atomText.length

/-- Every atom of the section is well formed. -/
def wfSec (s : UniformTextSection) : Prop := ∀ a ∈ s.atoms, wfAtom a

/-- Every section of the document is well formed. -/
def wfDoc (doc : List UniformTextSection) : Prop := ∀ s ∈ doc, wfSec s

/-- No run of the document is empty (zero total length).  Documents
built through the editor's own operations never contain empty runs. -/
def noEmptyDoc (doc : List UniformTextSection) : Prop :=
  ∀ s ∈ doc, 0 < s.getTotalLength

theorem atomsText_nil : atomsText [] = [] := rfl

theorem atomsText_cons (a : TextAtom) (as : List TextAtom) :
    atomsText (a :: as) = a.atomText ++ atomsText as := by
  simp [atomsText]

theorem atomsText_append (xs ys : List TextAtom) :
    atomsText (xs ++ ys) = atomsText xs ++ atomsText ys := by
  simp [atomsText]

theorem allText_eq (s : UniformTextSection) : s.allText = atomsText s.atoms :=
  rfl

theorem fullTextD_nil : fullTextD [] = [] := rfl

theorem fullTextD_cons (s : UniformTextSection)
    (ss : List UniformTextSection) :
    fullTextD (s :: ss) = s.allText ++ fullTextD ss := by
  simp [fullTextD]

theorem fullTextD_append (xs ys : List UniformTextSection) :
    fullTextD (xs ++ ys) = fullTextD xs ++ fullTextD ys := by
  simp [fullTextD]

theorem getTotalNumChars_nil : getTotalNumChars [] = 0 := rfl

theorem getTotalNumChars_cons (s : UniformTextSection)
    (ss : List UniformTextSection) :
    getTotalNumChars (s :: ss) = s.getTotalLength + getTotalNumChars ss := by
  simp [getTotalNumChars]

theorem getTotalNumChars_append (xs ys : List UniformTextSection) :
    getTotalNumChars (xs ++ ys) = getTotalNumChars xs + getTotalNumChars ys := by
  simp [getTotalNumChars]

/-- Sum of well-formed atoms' counts is the length of their text. -/
theorem sumNumChars_eq (as : List TextAtom) (h : ∀ a ∈ as, wfAtom a) :
    (as.map TextAtom.numChars).sum = (atomsText as).length := by
  induction as with
  | nil => simp [atomsText]
  | cons a as ih =>
    simp only [List.map_cons, List.sum_cons, atomsText_cons,
      List.length_append]
    rw [h a (by simp), ih (fun x hx => h x (by simp [hx]))]

/-- Under well-formedness a section's cached length is its text length. -/
theorem getTotalLength_eq_text (s : UniformTextSection) (h : wfSec s) :
    s.getTotalLength = s.allText.length :=
  sumNumChars_eq s.atoms h

/-- Under well-formedness a document's cached total is its text length. -/
theorem getTotalNumChars_eq_text (doc : List UniformTextSection)
    (h : wfDoc doc) : getTotalNumChars doc = (fullTextD doc).length := by
  induction doc with
  | nil => simp [getTotalNumChars_nil, fullTextD_nil]
  | cons s ss ih =>
    rw [getTotalNumChars_cons, fullTextD_cons, List.length_append,
      getTotalLength_eq_text s (h s (by simp)),
      ih (fun x hx => h x (by simp [hx]))]

/-- `append` never changes the concatenated text. -/
theorem append_allText (M : Metrics) (s1 s2 : UniformTextSection) :
    (s1.append M s2).allText = s1.allText ++ s2.allText := by
  unfold UniformTextSection.append
  cases h2 : s2.atoms with
  | nil => simp [allText_eq, h2, atomsText]
  | cons b bs =>
    cases h1 : s1.atoms.getLast? with
    | none =>
      simp only [allText_eq]
      rw [List.getLast?_eq_none_iff] at h1
      simp [h1, h2, atomsText_append, atomsText]
    | some la =>
      by_cases hm : !isWsJ (lastCharJ la.atomText) && !isWsJ (headCharJ b.atomText)
      · simp only [hm, if_true, allText_eq, h2]
        have hne : s1.atoms ≠ [] := by
          intro hnil; rw [hnil] at h1; simp at h1
        have hsplit : s1.atoms = s1.atoms.dropLast ++ [la] := by
          conv_lhs => rw [← List.dropLast_append_getLast hne]
          rw [List.getLast?_eq_getLast s1.atoms hne] at h1
          simp at h1
          rw [h1]
        rw [atomsText_append, atomsText_cons]
        conv_rhs => rw [hsplit]
        rw [atomsText_append, atomsText_cons, atomsText_cons, atomsText_nil]
        simp
      · simp only [hm, if_false, allText_eq, h2]
        simp [atomsText_append]

/-- Coalescing never changes the document text (spec §4.3). -/
theorem coalesce_text (M : Metrics) (ss : List UniformTextSection) :
    fullTextD (coalesceSimilarSections M ss) = fullTextD ss := by
  induction ss using coalesceSimilarSections.induct M with
  | case1 => simp only [coalesceSimilarSections]
  | case2 s => simp only [coalesceSimilarSections]
  | case3 s1 s2 rest hstyle ih =>
    simp only [coalesceSimilarSections]
    rw [if_pos hstyle, ih, fullTextD_cons, fullTextD_cons, fullTextD_cons,
      append_allText]
    simp
  | case4 s1 s2 rest hstyle ih =>
    simp only [coalesceSimilarSections]
    rw [if_neg hstyle, fullTextD_cons, ih, fullTextD_cons, fullTextD_cons,
      fullTextD_cons]

/-- Splitting an atom list never loses or duplicates text, whatever the
cached counts say: the two halves concatenate back to the original. -/
theorem splitAtoms_text (M : Metrics) (f : ℕ) (pwd : Char) (k : ℤ) :
    ∀ (index : ℤ) (as : List TextAtom),
    atomsText (splitAtoms M f pwd k index as).1 ++
      atomsText (splitAtoms M f pwd k index as).2 = atomsText as := by
  intro index as
  induction as generalizing index with
  | nil => simp [splitAtoms, atomsText]
  | cons a as ih =>
    by_cases h1 : index = k
    · simp [splitAtoms, h1, atomsText]
    · by_cases h2 : k ≥ index ∧ k < index + (a.numChars : ℤ)
      · simp only [splitAtoms, if_neg h1, if_pos h2, atomsText_cons,
          atomsText_nil, suffixJ, List.append_nil]
        rw [← List.append_assoc, List.take_append_drop]
      · simp only [splitAtoms, if_neg h1, if_neg h2, atomsText_cons]
        rw [List.append_assoc, ih]

/-- On a well-formed atom list, splitting at `k` (counting from `index`)
cuts the text exactly at character `k - index`. -/
theorem splitAtoms_text_wf (M : Metrics) (f : ℕ) (pwd : Char) :
    ∀ (as : List TextAtom) (k index : ℤ),
    (∀ a ∈ as, wfAtom a) → index ≤ k →
    atomsText (splitAtoms M f pwd k index as).1 =
      (atomsText as).take (k - index).toNat ∧
    atomsText (splitAtoms M f pwd k index as).2 =
      (atomsText as).drop (k - index).toNat := by
  intro as
  induction as with
  | nil => intro k index _ _; simp [splitAtoms, atomsText]
  | cons a as ih =>
    intro k index hwf hle
    have ha : a.numChars = a.atomText.length := hwf a (by simp)
    by_cases h1 : index = k
    · simp [splitAtoms, h1, atomsText]
    · by_cases h2 : k ≥ index ∧ k < index + (a.numChars : ℤ)
      · have hoff : (k - index).toNat ≤ a.atomText.length := by
          rw [ha] at h2; omega
        simp only [splitAtoms, if_neg h1, if_pos h2, atomsText_cons,
          atomsText_nil, suffixJ, List.append_nil]
        constructor
        · rw [List.take_append_eq_append_take, Nat.sub_eq_zero_of_le hoff,
            List.take_zero, List.append_nil]
        · rw [List.drop_append_eq_append_drop, Nat.sub_eq_zero_of_le hoff,
            List.drop_zero]
      · have hge : index + (a.numChars : ℤ) ≤ k := by omega
        have ih' := ih k (index + (a.numChars : ℤ))
          (fun x hx => hwf x (by simp [hx])) hge
        have hlen : a.atomText.length ≤ (k - index).toNat := by
          rw [← ha]; omega
        simp only [splitAtoms, if_neg h1, if_neg h2, atomsText_cons]
        rw [ih'.1, ih'.2]
        constructor
        · rw [List.take_append_eq_append_take, List.take_of_length_le hlen]
          congr 2
          rw [← ha]
          omega
        · rw [List.drop_append_eq_append_drop,
            List.drop_of_length_le hlen, List.nil_append]
          congr 1
          rw [← ha]
          omega

/-- `split` preserves the run's text: the two halves concatenate back. -/
theorem split_allText (M : Metrics) (s : UniformTextSection) (k : ℤ) :
    (s.split M k).1.allText ++ (s.split M k).2.allText = s.allText := by
  simp only [UniformTextSection.split, allText_eq]
  exact splitAtoms_text M s.font s.passwordChar k 0 s.atoms

/-- On a well-formed run, `split k` keeps exactly the first `k`
characters and moves exactly the rest. -/
theorem split_allText_wf (M : Metrics) (s : UniformTextSection) (k : ℤ)
    (hw : wfSec s) (hk : 0 ≤ k) :
    (s.split M k).1.allText = s.allText.take k.toNat ∧
    (s.split M k).2.allText = s.allText.drop k.toNat := by
  simp only [UniformTextSection.split, allText_eq]
  have h := splitAtoms_text_wf M s.font s.passwordChar s.atoms k 0 hw hk
  simpa using h

theorem takeWhile_append_of_neg {α} (p : α → Bool) (y : α) (h : p y = false) :
    ∀ (xs ys : List α), ((xs ++ y :: ys).takeWhile p) = xs.takeWhile p := by
  intro xs ys
  induction xs with
  | nil => simp [List.takeWhile, h]
  | cons x xs ih =>
    simp only [List.cons_append, List.takeWhile]
    cases hp : p x with
    | true => simp [ih]
    | false => simp

theorem dropWhile_append_of_neg {α} (p : α → Bool) (y : α) (h : p y = false) :
    ∀ (xs ys : List α), ((xs ++ y :: ys).dropWhile p) = xs.dropWhile p ++ y :: ys := by
  intro xs ys
  induction xs with
  | nil => simp [List.dropWhile, h]
  | cons x xs ih =>
    simp only [List.cons_append, List.dropWhile]
    cases hp : p x with
    | true => simp [ih]
    | false => simp

/-- Whether the text contains a `\r` immediately followed by `\n`. -/
def hasCRLF : List Char → Bool
  | [] => false
  | c :: cs => (c = '\r' && cs.headD jw0 = '\n') || hasCRLF cs

theorem hasCRLF_tail (c : Char) (cs : List Char)
    (h : hasCRLF (c :: cs) = false) : hasCRLF cs = false := by
  simp only [hasCRLF, Bool.or_eq_false_iff] at h
  exact h.2

theorem hasCRLF_dropWhile (p : Char → Bool) :
    ∀ (xs : List Char), hasCRLF xs = false →
      hasCRLF (xs.dropWhile p) = false := by
  intro xs
  induction xs with
  | nil => intro h; exact h
  | cons c cs ih =>
    intro h
    simp only [List.dropWhile]
    cases hp : p c with
    | true => exact ih (hasCRLF_tail c cs h)
    | false => exact h

/-- Every atom the tokenizer builds carries the (`uint16`-cast) length
of its own text as its character count. -/
theorem initialiseAtoms_counts (M : Metrics) (f : ℕ) (pwd : Char) :
    ∀ (l : List Char), ∀ a ∈ initialiseAtoms M f pwd l,
      a.numChars = u16 a.atomText.length := by
  intro l
  induction l using initialiseAtoms.induct M f pwd with
  | case1 => intro a ha; simp [initialiseAtoms] at ha
  | case2 c cs h ih =>
    intro a ha
    rw [initialiseAtoms, if_pos h] at ha
    rcases List.mem_cons.mp ha with h' | h'
    · rw [h']; rfl
    · exact ih a h'
  | case3 cs h1 h2 ih =>
    intro a ha
    rw [initialiseAtoms, if_neg h2, if_pos rfl, if_pos h1] at ha
    rcases List.mem_cons.mp ha with h' | h'
    · rw [h']; rfl
    · exact ih a h'
  | case4 cs h1 h2 ih =>
    intro a ha
    rw [initialiseAtoms, if_neg h2, if_pos rfl, if_neg h1] at ha
    rcases List.mem_cons.mp ha with h' | h'
    · rw [h']; rfl
    · exact ih a h'
  | case5 cs h1 h2 ih =>
    intro a ha
    rw [initialiseAtoms, if_neg h1, if_neg h2, if_pos rfl] at ha
    rcases List.mem_cons.mp ha with h' | h'
    · rw [h']; rfl
    · exact ih a h'
  | case6 c cs h1 h2 h3 ih =>
    intro a ha
    rw [initialiseAtoms, if_neg h1, if_neg h2, if_neg h3] at ha
    rcases List.mem_cons.mp ha with h' | h'
    · rw [h']; rfl
    · exact ih a h'

/-- On input free of `\r\n` pairs the tokenizer's atoms concatenate back
to the input text (it is `\r\n` alone whose leading `\r` the tokenizer
drops from the stored slice). -/
theorem initialiseAtoms_text (M : Metrics) (f : ℕ) (pwd : Char) :
    ∀ (l : List Char), hasCRLF l = false →
      atomsText (initialiseAtoms M f pwd l) = l := by
  intro l
  induction l using initialiseAtoms.induct M f pwd with
  | case1 => intro _; simp [initialiseAtoms, atomsText]
  | case2 c cs h ih =>
    intro hn
    rw [initialiseAtoms, if_pos h, atomsText_cons]
    show (c :: cs.takeWhile isWsNotNl) ++ _ = _
    rw [ih (hasCRLF_dropWhile _ cs (hasCRLF_tail c cs hn))]
    simp [List.takeWhile_append_dropWhile]
  | case3 cs h1 h2 ih =>
    intro hn
    exfalso
    rw [hasCRLF, h1] at hn
    simp at hn
  | case4 cs h1 h2 ih =>
    intro hn
    rw [initialiseAtoms, if_neg h2, if_pos rfl, if_neg h1, atomsText_cons]
    rw [ih (hasCRLF_tail _ cs hn)]
    rfl
  | case5 cs h1 h2 ih =>
    intro hn
    rw [initialiseAtoms, if_neg h1, if_neg h2, if_pos rfl, atomsText_cons]
    rw [ih (hasCRLF_tail _ cs hn)]
    rfl
  | case6 c cs h1 h2 h3 ih =>
    intro hn
    rw [initialiseAtoms, if_neg h1, if_neg h2, if_neg h3, atomsText_cons]
    show (c :: cs.takeWhile (fun x => !isWsJ x)) ++ _ = _
    rw [ih (hasCRLF_dropWhile _ cs (hasCRLF_tail c cs hn))]
    simp [List.takeWhile_append_dropWhile]

/-- Every atom the tokenizer builds either contains no newline character
at all, or is exactly the one-character text `\r` or `\n`. -/
theorem initialiseAtoms_pure (M : Metrics) (f : ℕ) (pwd : Char) :
    ∀ (l : List Char), ∀ a ∈ initialiseAtoms M f pwd l,
      (∀ c ∈ a.atomText, ¬(c = '\r' ∨ c = '\n')) ∨
        a.atomText = ['\r'] ∨ a.atomText = ['\n'] := by
  intro l
  induction l using initialiseAtoms.induct M f pwd with
  | case1 => intro a ha; simp [initialiseAtoms] at ha
  | case2 c cs h ih =>
    intro a ha
    rw [initialiseAtoms, if_pos h] at ha
    rcases List.mem_cons.mp ha with h' | h'
    · left
      rw [h']
      intro x hx
      rcases List.mem_cons.mp hx with h'' | h''
      · rw [h'']
        simp only [isWsNotNl, Bool.and_eq_true, Bool.not_eq_true',
          decide_eq_false_iff_not] at h
        tauto
      · have := List.mem_takeWhile_imp h''
        simp only [isWsNotNl, Bool.and_eq_true, Bool.not_eq_true',
          decide_eq_false_iff_not] at this
        tauto
    · exact ih a h'
  | case3 cs h1 h2 ih =>
    intro a ha
    rw [initialiseAtoms, if_neg h2, if_pos rfl, if_pos h1] at ha
    rcases List.mem_cons.mp ha with h' | h'
    · right; right; rw [h']; rfl
    · exact ih a h'
  | case4 cs h1 h2 ih =>
    intro a ha
    rw [initialiseAtoms, if_neg h2, if_pos rfl, if_neg h1] at ha
    rcases List.mem_cons.mp ha with h' | h'
    · right; left; rw [h']; rfl
    · exact ih a h'
  | case5 cs h1 h2 ih =>
    intro a ha
    rw [initialiseAtoms, if_neg h1, if_neg h2, if_pos rfl] at ha
    rcases List.mem_cons.mp ha with h' | h'
    · right; right; rw [h']; rfl
    · exact ih a h'
  | case6 c cs h1 h2 h3 ih =>
    intro a ha
    rw [initialiseAtoms, if_neg h1, if_neg h2, if_neg h3] at ha
    rcases List.mem_cons.mp ha with h' | h'
    · left
      rw [h']
      intro x hx
      rcases List.mem_cons.mp hx with h'' | h''
      · rw [h'']; tauto
      · have := List.mem_takeWhile_imp h''
        simp only [Bool.not_eq_true'] at this
        intro hc
        rcases hc with hc | hc <;> rw [hc] at this <;> simp [isWsJ] at this
    · exact ih a h'



/-- A `\r` immediately followed by `\n` at the head of the remaining
input becomes exactly one newline atom (text `"\n"`, one character). -/
theorem initialiseAtoms_crlf_head (M : Metrics) (f : ℕ) (pwd : Char)
    (t : List Char) :
    initialiseAtoms M f pwd ('\r' :: '\n' :: t) =
      mkAtom M f pwd ['\n'] :: initialiseAtoms M f pwd t := by
  rw [initialiseAtoms, if_neg (show ¬(isWsNotNl '\r' = true) by decide),
    if_pos (show ('\r' : Char) = '\r' from rfl),
    if_pos (show (('\n' :: t).headD jw0 = '\n') from rfl)]
  rfl

/-- The tokenizer always starts a fresh atom at a `\r`, so tokenizing
around an embedded `\r\n` decomposes into the part before, one newline
atom for the pair, and the part after (bounded-length strong
induction). -/
theorem initialiseAtoms_crlf_split (M : Metrics) (f : ℕ) (pwd : Char) :
    ∀ (n : ℕ) (s t : List Char), s.length ≤ n →
      initialiseAtoms M f pwd (s ++ '\r' :: '\n' :: t) =
        initialiseAtoms M f pwd s ++
          mkAtom M f pwd ['\n'] :: initialiseAtoms M f pwd t := by
  intro n
  induction n with
  | zero =>
    intro s t hs
    have hnil : s = [] := List.eq_nil_of_length_eq_zero (Nat.le_zero.mp hs)
    subst hnil
    rw [List.nil_append, initialiseAtoms_crlf_head]
    simp [initialiseAtoms]
  | succ n ih =>
    intro s t hs
    match s with
    | [] =>
      rw [List.nil_append, initialiseAtoms_crlf_head]
      simp [initialiseAtoms]
    | c :: cs =>
      have hcs : cs.length ≤ n := by
        simp only [List.length_cons] at hs; omega
      by_cases hA : isWsNotNl c = true
      · have hl := takeWhile_append_of_neg isWsNotNl '\r' (by decide) cs
          ('\n' :: t)
        have hd := dropWhile_append_of_neg isWsNotNl '\r' (by decide) cs
          ('\n' :: t)
        rw [List.cons_append, initialiseAtoms, if_pos hA, hl, hd,
          ih (cs.dropWhile isWsNotNl) t
            (le_trans (List.dropWhile_sublist _).length_le hcs)]
        conv_rhs => rw [initialiseAtoms, if_pos hA]
        rw [List.cons_append]
      · by_cases hB : c = '\r'
        · subst hB
          match cs with
          | [] =>
            rw [List.cons_append, List.nil_append, initialiseAtoms,
              if_neg hA, if_pos (show ('\r' : Char) = '\r' from rfl),
              if_neg (show ¬(('\r' :: ('\n' :: t)).headD jw0 = '\n') by
                simp),
              initialiseAtoms_crlf_head]
            conv_rhs => rw [initialiseAtoms, if_neg hA,
              if_pos (show ('\r' : Char) = '\r' from rfl),
              if_neg (show ¬(([] : List Char).headD jw0 = '\n') by decide)]
            simp [initialiseAtoms]
          | '\n' :: cs' =>
            rw [List.cons_append, List.cons_append, initialiseAtoms,
              if_neg hA, if_pos (show ('\r' : Char) = '\r' from rfl),
              if_pos (show (('\n' :: (cs' ++ '\r' :: '\n' :: t)).headD jw0
                = '\n') from rfl)]
            rw [show ('\n' :: (cs' ++ '\r' :: '\n' :: t)).tail
                = cs' ++ '\r' :: '\n' :: t from rfl,
              ih cs' t (by simp only [List.length_cons] at hcs; omega),
              initialiseAtoms_crlf_head, List.cons_append]
          | x :: cs' =>
            by_cases hx : x = '\n'
            · subst hx
              rw [List.cons_append, List.cons_append, initialiseAtoms,
                if_neg hA, if_pos (show ('\r' : Char) = '\r' from rfl),
                if_pos (show (('\n' :: (cs' ++ '\r' :: '\n' :: t)).headD jw0
                  = '\n') from rfl)]
              rw [show ('\n' :: (cs' ++ '\r' :: '\n' :: t)).tail
                  = cs' ++ '\r' :: '\n' :: t from rfl,
                ih cs' t (by simp only [List.length_cons] at hcs; omega),
                initialiseAtoms_crlf_head, List.cons_append]
            · rw [List.cons_append, List.cons_append, initialiseAtoms,
                if_neg hA, if_pos (show ('\r' : Char) = '\r' from rfl),
                if_neg (show ¬((x :: (cs' ++ '\r' :: '\n' :: t)).headD jw0
                  = '\n') by simpa using hx)]
              rw [← List.cons_append, ih (x :: cs') t hcs]
              conv_rhs => rw [initialiseAtoms, if_neg hA,
                if_pos (show ('\r' : Char) = '\r' from rfl),
                if_neg (show ¬((x :: cs').headD jw0 = '\n') by
                  simpa using hx)]
              rw [List.cons_append]
        · by_cases hC : c = '\n'
          · subst hC
            rw [List.cons_append, initialiseAtoms, if_neg hA,
              if_neg (show ¬(('\n' : Char) = '\r') by decide),
              if_pos (show ('\n' : Char) = '\n' from rfl), ih cs t hcs]
            conv_rhs => rw [initialiseAtoms, if_neg hA,
              if_neg (show ¬(('\n' : Char) = '\r') by decide),
              if_pos (show ('\n' : Char) = '\n' from rfl)]
            rw [List.cons_append]
          · have hl := takeWhile_append_of_neg (fun x => !isWsJ x) '\r'
              (by decide) cs ('\n' :: t)
            have hd := dropWhile_append_of_neg (fun x => !isWsJ x) '\r'
              (by decide) cs ('\n' :: t)
            rw [List.cons_append, initialiseAtoms, if_neg hA, if_neg hB,
              if_neg hC, hl, hd,
              ih (cs.dropWhile (fun x => !isWsJ x)) t
                (le_trans (List.dropWhile_sublist _).length_le hcs)]
            conv_rhs => rw [initialiseAtoms, if_neg hA, if_neg hB,
              if_neg hC]
            rw [List.cons_append]

/-- An atom's text is never longer than the whole list's text. -/
theorem member_text_le (as : List TextAtom) (a : TextAtom) (ha : a ∈ as) :
    a.atomText.length ≤ (atomsText as).length := by
  induction as with
  | nil => simp at ha
  | cons x xs ih =>
    rw [atomsText_cons, List.length_append]
    rcases List.mem_cons.mp ha with h | h
    · rw [h]; omega
    · have := ih h; omega

/-- Concrete metrics used by witnesses and counterexamples: widths are
character counts, line height 1, descent 0, unit glyph advances. -/
def Mc : Metrics :=
  { stringWidth := fun _ t => (t.length : ℚ)
    fontHeight := fun _ => 1
    fontDescent := fun _ => 0
    glyphRight := fun _ _ j => (j : ℚ) + 1
    numGlyphs := fun _ t => t.length }

/-- A freshly constructed editor: empty document, caret 0, writable,
enabled, no password character, empty undo manager. -/
def emptyEditor : EditorState :=
  { sections := [], caretPosition := 0, readOnly := false, enabled := true
    passwordCharacter := jw0
    um := { current := [], committed := [], redoT := [] } }

/-- Claim C6 (confirmed): in every input fragment, a `\r` immediately
followed by `\n` is recognised as exactly one newline atom, never two:
tokenizing any fragment `s ++ "\r\n" ++ t` yields the atoms of `s`, then
one single atom for the pair — a newline atom of one character — then
the atoms of `t`. -/
theorem c6_crlf_single_newline_atom (M : Metrics) (f : ℕ) (pwd : Char)
    (s t : List Char) :
    initialiseAtoms M f pwd (s ++ '\r' :: '\n' :: t) =
      initialiseAtoms M f pwd s ++
        mkAtom M f pwd ['\n'] :: initialiseAtoms M f pwd t ∧
    (mkAtom M f pwd ['\n']).isNewLine = true ∧
    (mkAtom M f pwd ['\n']).numChars = 1 := by
  refine ⟨initialiseAtoms_crlf_split M f pwd s.length s t le_rfl, ?_, ?_⟩
  · rfl
  · rfl

/-- Claim C3 (corrected) counterexample: the tokenizer does *not* cover
the fragment exactly once when it contains `\r\n` — the `\r` of the pair
is dropped from the stored atom texts, so the concatenation of the
atoms' texts differs from the fragment (here `"a\r\nb"` tokenizes to
texts concatenating to `"a\nb"`). -/
theorem c3_coverage_counterexample :
    ((initialiseAtoms Mc 1 jw0 ['a', '\r', '\n', 'b']).map
      TextAtom.atomText).flatten ≠ ['a', '\r', '\n', 'b'] := by
  have h : initialiseAtoms Mc 1 jw0 ['a', '\r', '\n', 'b'] =
      mkAtom Mc 1 jw0 ['a'] :: mkAtom Mc 1 jw0 ['\n'] ::
        [mkAtom Mc 1 jw0 ['b']] := by
    simp [initialiseAtoms, List.takeWhile, List.dropWhile, isWsNotNl,
      isWsJ, jw0]
  rw [h]
  simp [mkAtom]

/-- Claim C3 (amended): for every fragment that contains no `\r`
immediately followed by `\n` and is shorter than 2^16 characters, the
tokenizer covers the fragment exactly once in original order: the
concatenation of the atoms' texts equals the fragment, the sum of their
character counts equals the fragment's length, and no atom contains a
newline character together with any other character.  (For fragments
with a `\r\n` pair the `\r` is dropped — see the counterexample — and a
single run of 2^16 or more characters overflows the `uint16` count
field.) -/
theorem c3_tokenizer_covers (M : Metrics) (f : ℕ) (pwd : Char)
    (l : List Char) (hn : hasCRLF l = false) (hb : l.length < 65536) :
    atomsText (initialiseAtoms M f pwd l) = l ∧
    ((initialiseAtoms M f pwd l).map TextAtom.numChars).sum = l.length ∧
    (∀ a ∈ initialiseAtoms M f pwd l,
      (∃ c ∈ a.atomText, c = '\r' ∨ c = '\n') → ∃ c, a.atomText = [c]) := by
  have htext := initialiseAtoms_text M f pwd l hn
  refine ⟨htext, ?_, ?_⟩
  · have hwf : ∀ a ∈ initialiseAtoms M f pwd l, wfAtom a := by
      intro a ha
      have hc := initialiseAtoms_counts M f pwd l a ha
      have hlen : a.atomText.length ≤ l.length := by
        have := member_text_le (initialiseAtoms M f pwd l) a ha
        rw [htext] at this
        exact this
      unfold wfAtom
      rw [hc]
      unfold u16
      omega
    rw [sumNumChars_eq _ hwf, htext]
  · intro a ha hnl
    rcases initialiseAtoms_pure M f pwd l a ha with h | h | h
    · exfalso
      obtain ⟨c, hc, hcr⟩ := hnl
      exact h c hc hcr
    · exact ⟨'\r', h⟩
    · exact ⟨'\n', h⟩

/-- Witness for C3's amended theorem at the fragment `"ab cd"`. -/
theorem c3_tokenizer_covers_witness :
    (hasCRLF ['a', 'b', ' ', 'c', 'd'] = false ∧
      (['a', 'b', ' ', 'c', 'd'] : List Char).length < 65536) ∧
    (atomsText (initialiseAtoms Mc 1 jw0 ['a', 'b', ' ', 'c', 'd']) =
        ['a', 'b', ' ', 'c', 'd'] ∧
      ((initialiseAtoms Mc 1 jw0 ['a', 'b', ' ', 'c', 'd']).map
        TextAtom.numChars).sum = (['a', 'b', ' ', 'c', 'd'] : List Char).length ∧
      (∀ a ∈ initialiseAtoms Mc 1 jw0 ['a', 'b', ' ', 'c', 'd'],
        (∃ c ∈ a.atomText, c = '\r' ∨ c = '\n') → ∃ c, a.atomText = [c])) :=
  ⟨⟨by decide, by decide⟩,
    c3_tokenizer_covers Mc 1 jw0 ['a', 'b', ' ', 'c', 'd']
      (by decide) (by decide)⟩

/-- Claim C10 (confirmed): for every document and every range whose
start is at or after its end — the empty case and the raw inverted
case alike (a `juce::Range` constructed from inverted endpoints is
already normalised to empty by its constructor) — `getTextInRange`
returns the empty string.  The operation is `const` in the source, so
the document itself is untouched; in this pure embedding it is a
function of the document and returns only the extracted text. -/
theorem c10_empty_or_inverted_range (doc : List UniformTextSection)
    (a b : ℤ) (h : b ≤ a) : getTextInRange doc (a, b) = [] := by
  by_cases hab : a = b
  · simp [getTextInRange, hab]
  · have hb : b < a := lt_of_le_of_ne h (fun he => hab he.symm)
    rw [getTextInRange, if_neg hab]
    have hatoms : ∀ (rs re : ℤ), re ≤ rs → ∀ (as : List TextAtom) (idx : ℤ),
        appendSubstringAtoms rs re idx as = [] := by
      intro rs re hre as
      induction as with
      | nil => intro idx; rfl
      | cons x xs ih =>
        intro idx
        simp only [appendSubstringAtoms]
        by_cases h1 : rs < idx + (x.numChars : ℤ)
        · rw [if_pos h1]
          by_cases h2 : re ≤ idx
          · rw [if_pos h2]
          · rw [if_neg h2]
            have hsub : (if max (rs - idx) 0 = min (re - idx) (x.numChars : ℤ)
                then ([] : List Char)
                else substringJ x.atomText (max (rs - idx) 0)
                  (min (re - idx) (x.numChars : ℤ))) = [] := by
              by_cases he : max (rs - idx) 0 = min (re - idx) (x.numChars : ℤ)
              · rw [if_pos he]
              · rw [if_neg he]
                unfold substringJ
                rw [if_pos (by omega)]
            rw [hsub, List.nil_append]
            exact ih _
        · rw [if_neg h1]
          exact ih _
    have hgo : ∀ (ss : List UniformTextSection) (idx : ℤ),
        getTextInRangeGo a b idx ss = [] := by
      intro ss
      induction ss with
      | nil => intro idx; rfl
      | cons s rest ih =>
        intro idx
        simp only [getTextInRangeGo]
        by_cases h1 : a < idx + (s.getTotalLength : ℤ)
        · rw [if_pos h1]
          by_cases h2 : b ≤ idx
          · rw [if_pos h2]
          · rw [if_neg h2, hatoms (a - idx) (b - idx) (by omega),
              List.nil_append]
            exact ih _
        · rw [if_neg h1]
          exact ih _
    exact hgo doc 0

/-- Witness for C10 at the one-run document `"abcdef"` and the inverted
range `(3, 1)`. -/
theorem c10_empty_or_inverted_range_witness :
    ((1 : ℤ) ≤ 3) ∧
    getTextInRange [mkSection Mc ['a', 'b', 'c', 'd', 'e', 'f'] 1 0 jw0]
      (3, 1) = [] :=
  ⟨by decide,
   c10_empty_or_inverted_range
     [mkSection Mc ['a', 'b', 'c', 'd', 'e', 'f'] 1 0 jw0] 3 1 (by decide)⟩

/-- Claim C9 (confirmed): when the editor is read-only (the flag set, or
the component disabled), `undo()` and `redo()` return `false` and leave
the whole editor state — document, caret and undo history — unchanged,
whatever that history holds. -/
theorem c9_read_only_undo_redo (M : Metrics) (st : EditorState)
    (shouldUndo : Bool) (h : isReadOnlyE st = true) :
    undoOrRedo M shouldUndo st = (false, st) := by
  rw [undoOrRedo, h]
  simp

/-- A read-only editor with a non-empty document and a non-empty undo
history, used by the C9 witness. -/
def roEditor : EditorState :=
  { sections := [mkSection Mc ['a'] 1 0 jw0]
    caretPosition := 1
    readOnly := true
    enabled := true
    passwordCharacter := jw0
    um := { current := []
            committed := [[EditAction.insertA ['a'] 0 1 0 0 1]]
            redoT := [] } }

/-- Witness for C9: a read-only editor holding a non-empty document and
a non-empty undo history is left exactly as it is by both undo and
redo. -/
theorem c9_read_only_undo_redo_witness :
    (isReadOnlyE roEditor = true ∧ roEditor.um.committed ≠ []) ∧
    undoOrRedo Mc true roEditor = (false, roEditor) ∧
    undoOrRedo Mc false roEditor = (false, roEditor) :=
  ⟨⟨rfl, by decide⟩,
   c9_read_only_undo_redo Mc roEditor true rfl,
   c9_read_only_undo_redo Mc roEditor false rfl⟩

/-- Claim C7 (confirmed): starting from the empty document, inserting
`"hello"` at index 0 with any style through the undo stack and then
calling `undo()` yields a document whose full text is empty and whose
total length is 0. -/
theorem c7_insert_undo_empty (M : Metrics) (f c : ℕ) (cp : ℤ) :
    fullTextD (undoOrRedo M true
      (insertWithUndo M ['h', 'e', 'l', 'l', 'o'] 0 f c cp
        emptyEditor)).2.sections = [] ∧
    getTotalNumChars (undoOrRedo M true
      (insertWithUndo M ['h', 'e', 'l', 'l', 'o'] 0 f c cp
        emptyEditor)).2.sections = 0 := by
  constructor <;>
  simp [insertWithUndo, performUM, performAction, insertOp, insertGo,
    mkSection, initialiseAtoms, coalesceSimilarSections, undoOrRedo,
    isReadOnlyE, newTransactionE, beginNewTransactionU, umUndoE, undoAction,
    removeOp, splitRuns, splitRunsF, deleteRuns,
    UniformTextSection.getTotalLength, mkAtom, u16, fullTextD,
    getTotalNumChars, emptyEditor, moveCaretClamp, List.takeWhile,
    List.dropWhile, isWsNotNl, isWsJ, jw0]

/-- Claim C8 (confirmed): on every well-formed styled run of total
length `L` and every `0 ≤ charOffset ≤ L`, `split` leaves exactly the
first `charOffset` characters in the run and returns a new run of the
same style (font, colour, password character) holding the remaining
`L - charOffset` characters; at `charOffset = L` the returned run is
empty; the two runs' texts concatenate back to the original text. -/
theorem c8_split_spec (M : Metrics) (s : UniformTextSection) (k : ℤ)
    (hw : wfSec s) (h0 : 0 ≤ k) (hk : k ≤ (s.getTotalLength : ℤ)) :
    (s.split M k).1.allText = s.allText.take k.toNat ∧
    (s.split M k).2.allText = s.allText.drop k.toNat ∧
    (s.split M k).1.allText.length = k.toNat ∧
    (s.split M k).2.allText.length = s.getTotalLength - k.toNat ∧
    (s.split M k).1.allText ++ (s.split M k).2.allText = s.allText ∧
    (s.split M k).2.font = s.font ∧
    (s.split M k).2.colour = s.colour ∧
    (s.split M k).2.passwordChar = s.passwordChar ∧
    (k = (s.getTotalLength : ℤ) → (s.split M k).2.allText = []) := by
  obtain ⟨h1, h2⟩ := split_allText_wf M s k hw h0
  have hlen := getTotalLength_eq_text s hw
  have hk' : k.toNat ≤ s.allText.length := by rw [← hlen]; omega
  refine ⟨h1, h2, ?_, ?_, ?_, rfl, rfl, rfl, ?_⟩
  · rw [h1, List.length_take]; omega
  · rw [h2, List.length_drop, ← hlen]
  · rw [h1, h2, List.take_append_drop]
  · intro hke
    rw [h2, List.drop_of_length_le (by omega)]

instance (a : TextAtom) : Decidable (wfAtom a) := by
  unfold wfAtom; infer_instance

instance (s : UniformTextSection) : Decidable (wfSec s) := by
  unfold wfSec; exact List.decidableBAll _ _

instance (d : List UniformTextSection) : Decidable (wfDoc d) := by
  unfold wfDoc; exact List.decidableBAll _ _

instance (d : List UniformTextSection) : Decidable (noEmptyDoc d) := by
  unfold noEmptyDoc; exact List.decidableBAll _ _

/-- A literal three-atom run holding `"ab cd"`, used by witnesses. -/
def abcdSec : UniformTextSection :=
  { font := 1, colour := 0, passwordChar := jw0
    atoms := [{ atomText := ['a', 'b'], width := 2, numChars := 2 },
              { atomText := [' '], width := 1, numChars := 1 },
              { atomText := ['c', 'd'], width := 2, numChars := 2 }] }

/-- Witness for C8 at the run `"ab cd"` split at offset 3 (inside the
word atom `"cd"` would be offset 4; offset 3 lands at the boundary). -/
theorem c8_split_spec_witness :
    (wfSec abcdSec ∧ (0 : ℤ) ≤ 3 ∧
      (3 : ℤ) ≤ (abcdSec.getTotalLength : ℤ)) ∧
    ((abcdSec.split Mc 3).1.allText = abcdSec.allText.take 3 ∧
     (abcdSec.split Mc 3).2.allText = abcdSec.allText.drop 3 ∧
     (abcdSec.split Mc 3).1.allText.length = 3 ∧
     (abcdSec.split Mc 3).2.allText.length = abcdSec.getTotalLength - 3 ∧
     (abcdSec.split Mc 3).1.allText ++ (abcdSec.split Mc 3).2.allText =
       abcdSec.allText ∧
     (abcdSec.split Mc 3).2.font = abcdSec.font ∧
     (abcdSec.split Mc 3).2.colour = abcdSec.colour ∧
     (abcdSec.split Mc 3).2.passwordChar = abcdSec.passwordChar ∧
     ((3 : ℤ) = (abcdSec.getTotalLength : ℤ) →
       (abcdSec.split Mc 3).2.allText = [])) :=
  ⟨⟨by decide, by decide, by decide⟩,
   c8_split_spec Mc abcdSec 3 (by decide) (by decide) (by decide)⟩

/-- The navigation loop of `insert` never finds a slot when the index is
negative or beyond the document's total length: the section list comes
back unchanged and the loop's final `nextIndex` is the total length. -/
theorem insertGo_no_hit (M : Metrics) (ns : UniformTextSection) (idx : ℤ) :
    ∀ (ss : List UniformTextSection) (index : ℤ),
    ((idx < 0 ∧ 0 ≤ index) ∨ index + (getTotalNumChars ss : ℤ) < idx) →
    insertGo M ns idx index ss = (ss, index + (getTotalNumChars ss : ℤ)) := by
  intro ss
  induction ss with
  | nil =>
    intro index h
    simp [insertGo, getTotalNumChars_nil]
  | cons s rest ih =>
    intro index h
    have hc : (getTotalNumChars (s :: rest) : ℤ) =
        (s.getTotalLength : ℤ) + (getTotalNumChars rest : ℤ) := by
      rw [getTotalNumChars_cons]
      push_cast
      ring
    have hL : (0 : ℤ) ≤ (s.getTotalLength : ℤ) := Int.ofNat_nonneg _
    have hR : (0 : ℤ) ≤ (getTotalNumChars rest : ℤ) := Int.ofNat_nonneg _
    rw [hc] at h
    simp only [insertGo]
    rw [if_neg (by omega), if_neg (by omega),
      ih (index + (s.getTotalLength : ℤ)) (by omega), hc, add_assoc]

/-- Claim C4 (corrected) counterexample: inserting `"x"` at index 5 into
the one-character document `"a"` does *not* clamp the index and insert
at the end (which would give `"ax"`); the text is silently dropped. -/
theorem c4_insert_counterexample :
    fullTextD (insertOp Mc ['x'] 5 1 0 jw0
      [{ font := 1, colour := 0, passwordChar := jw0
         atoms := [{ atomText := ['a'], width := 1, numChars := 1 }] }]) ≠
      ['a', 'x'] := by
  have h : fullTextD (insertOp Mc ['x'] 5 1 0 jw0
      [{ font := 1, colour := 0, passwordChar := jw0
         atoms := [{ atomText := ['a'], width := 1, numChars := 1 }] }]) =
      ['a'] := by
    simp [insertOp, insertGo, coalesceSimilarSections, fullTextD,
      UniformTextSection.getTotalLength, UniformTextSection.allText]
  rw [h]
  decide

/-- Claim C4 (amended): the document-level `insert` does not clamp its
index argument.  For every document, style and non-empty text, `insert`
with an index outside `[0, totalLength]` (negative, or strictly greater
than the total length) silently inserts nothing: the full text is
unchanged (the run list is merely re-coalesced), and the operation is a
total function — never fatal.  (Caret positions, by contrast, are
clamped by `moveCaret` at the host boundary.) -/
theorem c4_out_of_range_insert (M : Metrics) (text : List Char)
    (idx : ℤ) (f c : ℕ) (pwd : Char) (doc : List UniformTextSection)
    (h : idx < 0 ∨ (getTotalNumChars doc : ℤ) < idx) :
    fullTextD (insertOp M text idx f c pwd doc) = fullTextD doc := by
  unfold insertOp
  by_cases ht : text = []
  · rw [if_pos ht]
  · rw [if_neg ht]
    have hgo := insertGo_no_hit M (mkSection M text f c pwd) idx doc 0
      (by rcases h with h | h
          · exact Or.inl ⟨h, le_refl 0⟩
          · exact Or.inr (by omega))
    simp only [hgo]
    rw [if_neg (by
      have : (0 : ℤ) + (getTotalNumChars doc : ℤ) = (getTotalNumChars doc : ℤ) := by ring
      omega)]
    exact coalesce_text M doc

/-- Witness for C4's amended theorem: index 5 into the one-character
document `"a"`. -/
theorem c4_out_of_range_insert_witness :
    ((5 : ℤ) < 0 ∨ (getTotalNumChars
      [{ font := 1, colour := 0, passwordChar := jw0
         atoms := [{ atomText := ['a'], width := 1, numChars := 1 }] }] : ℤ) < 5) ∧
    fullTextD (insertOp Mc ['x'] 5 1 0 jw0
      [{ font := 1, colour := 0, passwordChar := jw0
         atoms := [{ atomText := ['a'], width := 1, numChars := 1 }] }]) =
    fullTextD
      [{ font := 1, colour := 0, passwordChar := jw0
         atoms := [{ atomText := ['a'], width := 1, numChars := 1 }] }] :=
  ⟨Or.inr (by decide),
   c4_out_of_range_insert Mc ['x'] 5 1 0 jw0 _ (Or.inr (by decide))⟩

theorem getLast?_replicate_pos {α} (n : ℕ) (c : α) (h : 0 < n) :
    (List.replicate n c).getLast? = some c := by
  induction n with
  | zero => omega
  | succ m ih =>
    rw [List.replicate_succ]
    cases m with
    | zero => rfl
    | succ k =>
      rw [List.replicate_succ, List.getLast?_cons_cons, ← List.replicate_succ]
      exact ih (Nat.succ_pos k)

theorem headD_replicate_pos {α} (n : ℕ) (c d : α) (h : 0 < n) :
    (List.replicate n c).headD d = c := by
  cases n with
  | zero => omega
  | succ m => rw [List.replicate_succ]; rfl

/-- `append` keeps the first run's font. -/
theorem append_font (M : Metrics) (s1 s2 : UniformTextSection) :
    (s1.append M s2).font = s1.font := by
  unfold UniformTextSection.append
  cases s2.atoms with
  | nil => rfl
  | cons b bs =>
    cases s1.atoms.getLast? with
    | none => rfl
    | some la =>
      dsimp only
      by_cases hm : (!isWsJ (lastCharJ la.atomText) &&
          !isWsJ (headCharJ b.atomText)) = true
      · rw [if_pos hm]
      · rw [if_neg hm]

/-- `append` keeps the first run's colour. -/
theorem append_colour (M : Metrics) (s1 s2 : UniformTextSection) :
    (s1.append M s2).colour = s1.colour := by
  unfold UniformTextSection.append
  cases s2.atoms with
  | nil => rfl
  | cons b bs =>
    cases s1.atoms.getLast? with
    | none => rfl
    | some la =>
      dsimp only
      by_cases hm : (!isWsJ (lastCharJ la.atomText) &&
          !isWsJ (headCharJ b.atomText)) = true
      · rw [if_pos hm]
      · rw [if_neg hm]

/-- `append` preserves well-formedness as long as the combined text fits
the 16-bit count field. -/
theorem append_wf (M : Metrics) (s1 s2 : UniformTextSection)
    (h1 : wfSec s1) (h2 : wfSec s2)
    (hb : (s1.allText ++ s2.allText).length < 65536) :
    wfSec (s1.append M s2) := by
  unfold UniformTextSection.append
  cases hs2 : s2.atoms with
  | nil => exact h1
  | cons b bs =>
    have hbmem : b ∈ s2.atoms := by rw [hs2]; simp
    have hb2 : b.numChars = b.atomText.length := h2 b hbmem
    have hblen : b.atomText.length ≤ s2.allText.length :=
      member_text_le s2.atoms b hbmem
    cases hla : s1.atoms.getLast? with
    | none =>
      intro a ha
      simp only [List.mem_append, List.mem_cons] at ha
      rcases ha with h | h | h
      · exact h1 a h
      · rw [h]; exact h2 b hbmem
      · exact h2 a (by rw [hs2]; simp [h])
    | some la =>
      have hlamem : la ∈ s1.atoms := List.mem_of_mem_getLast? hla
      have hla1 : la.numChars = la.atomText.length := h1 la hlamem
      have hlalen : la.atomText.length ≤ s1.allText.length :=
        member_text_le s1.atoms la hlamem
      dsimp only
      by_cases hm : (!isWsJ (lastCharJ la.atomText) &&
          !isWsJ (headCharJ b.atomText)) = true
      · rw [if_pos hm]
        intro a ha
        simp only [List.mem_append, List.mem_cons] at ha
        rcases ha with h | h | h
        · exact h1 a ((List.dropLast_sublist s1.atoms).mem h)
        · rw [h]
          show u16 (la.numChars + b.numChars) =
            (la.atomText ++ b.atomText).length
          rw [List.length_append, hla1, hb2]
          unfold u16
          have : s1.allText.length + s2.allText.length < 65536 := by
            rw [← List.length_append]; exact hb
          omega
        · exact h2 a (by rw [hs2]; simp [h])
      · rw [if_neg hm]
        intro a ha
        simp only [List.mem_append, List.mem_cons] at ha
        rcases ha with h | h | h
        · exact h1 a h
        · rw [h]; exact h2 b hbmem
        · exact h2 a (by rw [hs2]; simp [h])

/-- Coalescing preserves well-formedness when the document text fits the
16-bit count field. -/
theorem coalesce_wf (M : Metrics) (ss : List UniformTextSection)
    (hw : wfDoc ss) (hb : (fullTextD ss).length < 65536) :
    wfDoc (coalesceSimilarSections M ss) := by
  induction ss using coalesceSimilarSections.induct M with
  | case1 =>
    simp only [coalesceSimilarSections]
    exact hw
  | case2 s =>
    simp only [coalesceSimilarSections]
    exact hw
  | case3 s1 s2 rest hstyle ih =>
    simp only [coalesceSimilarSections]
    rw [if_pos hstyle]
    have htext : fullTextD (s1.append M s2 :: rest) =
        fullTextD (s1 :: s2 :: rest) := by
      rw [fullTextD_cons, append_allText, fullTextD_cons, fullTextD_cons,
        List.append_assoc]
    apply ih
    · intro x hx
      rcases List.mem_cons.mp hx with h | h
      · rw [h]
        apply append_wf M s1 s2 (hw s1 (by simp)) (hw s2 (by simp))
        have : (s1.allText ++ s2.allText).length ≤
            (fullTextD (s1 :: s2 :: rest)).length := by
          rw [fullTextD_cons, fullTextD_cons, List.length_append,
            List.length_append, List.length_append]
          omega
        omega
      · exact hw x (by simp [h])
    · rw [htext]; exact hb
  | case4 s1 s2 rest hstyle ih =>
    simp only [coalesceSimilarSections]
    rw [if_neg hstyle]
    intro x hx
    rcases List.mem_cons.mp hx with h | h
    · rw [h]; exact hw s1 (by simp)
    · refine ih (fun y hy => hw y (by simp [List.mem_cons.mp hy])) ?_ x h
      have : (fullTextD (s2 :: rest)).length ≤
          (fullTextD (s1 :: s2 :: rest)).length := by
        rw [fullTextD_cons s1, List.length_append]
        omega
      omega

/-- No two neighbouring runs of the list share both font and colour. -/
def adjacentDistinct : List UniformTextSection → Prop
  | [] => True
  | [_] => True
  | s1 :: s2 :: rest =>
    ¬(s1.font = s2.font ∧ s1.colour = s2.colour) ∧
      adjacentDistinct (s2 :: rest)

/-- Coalescing a non-empty list yields a non-empty list headed by a run
with the original head's font and colour. -/
theorem coalesce_head_style (M : Metrics) :
    ∀ (n : ℕ) (s : UniformTextSection) (rest : List UniformTextSection),
    rest.length ≤ n →
    ∃ s' tl, coalesceSimilarSections M (s :: rest) = s' :: tl ∧
      s'.font = s.font ∧ s'.colour = s.colour := by
  intro n
  induction n with
  | zero =>
    intro s rest hr
    have : rest = [] := List.eq_nil_of_length_eq_zero (Nat.le_zero.mp hr)
    subst this
    exact ⟨s, [], by simp [coalesceSimilarSections], rfl, rfl⟩
  | succ n ih =>
    intro s rest hr
    match rest with
    | [] => exact ⟨s, [], by simp [coalesceSimilarSections], rfl, rfl⟩
    | s2 :: rest' =>
      by_cases hstyle : s.font = s2.font ∧ s.colour = s2.colour
      · have := ih (s.append M s2) rest' (by
          simp only [List.length_cons] at hr; omega)
        obtain ⟨s', tl, heq, hf, hc⟩ := this
        refine ⟨s', tl, ?_, ?_, ?_⟩
        · simp only [coalesceSimilarSections]
          rw [if_pos hstyle]
          exact heq
        · rw [hf, append_font]
        · rw [hc, append_colour]
      · refine ⟨s, coalesceSimilarSections M (s2 :: rest'), ?_, rfl, rfl⟩
        simp only [coalesceSimilarSections]
        rw [if_neg hstyle]

/-- After coalescing, no two adjacent runs share a style. -/
theorem coalesce_adjacentDistinct (M : Metrics) :
    ∀ (n : ℕ) (ss : List UniformTextSection), ss.length ≤ n →
    adjacentDistinct (coalesceSimilarSections M ss) := by
  intro n
  induction n with
  | zero =>
    intro ss hs
    have : ss = [] := List.eq_nil_of_length_eq_zero (Nat.le_zero.mp hs)
    subst this
    simp only [coalesceSimilarSections]
    trivial
  | succ n ih =>
    intro ss hs
    match ss with
    | [] =>
      simp only [coalesceSimilarSections]
      trivial
    | [s] =>
      simp only [coalesceSimilarSections]
      trivial
    | s1 :: s2 :: rest =>
      by_cases hstyle : s1.font = s2.font ∧ s1.colour = s2.colour
      · simp only [coalesceSimilarSections]
        rw [if_pos hstyle]
        exact ih _ (by simp only [List.length_cons] at hs ⊢; omega)
      · simp only [coalesceSimilarSections]
        rw [if_neg hstyle]
        obtain ⟨s', tl, heq, hf, hc⟩ := coalesce_head_style M rest.length
          s2 rest le_rfl
        rw [heq]
        show ¬(s1.font = s'.font ∧ s1.colour = s'.colour) ∧
          adjacentDistinct (s' :: tl)
        constructor
        · rw [hf, hc]
          exact hstyle
        · have := ih (s2 :: rest) (by
            simp only [List.length_cons] at hs ⊢; omega)
          rw [heq] at this
          exact this

/-- A 40000-character word atom with a correct count, and a run holding
it: two such runs coalesce into a single atom whose `uint16` count
overflows. -/
def bigAtom : TextAtom :=
  { atomText := List.replicate 40000 'a', width := 0, numChars := 40000 }

/-- A run holding `bigAtom` (well-formed: the count is the length). -/
def bigRun : UniformTextSection :=
  { font := 1, colour := 0, passwordChar := jw0, atoms := [bigAtom] }

/-- Claim C2 (corrected) counterexample: coalescing the two-run document
of two same-style 40000-character word runs changes `totalLength()` —
the merged atom's character count is stored through a `uint16` cast, so
80000 becomes 14464 (fullText, by contrast, is preserved). -/
theorem c2_total_length_counterexample :
    getTotalNumChars (coalesceSimilarSections Mc [bigRun, bigRun]) ≠
      getTotalNumChars [bigRun, bigRun] := by
  have hlast : lastCharJ bigAtom.atomText = 'a' := by
    unfold lastCharJ bigAtom
    rw [getLast?_replicate_pos 40000 'a' (by norm_num)]
    rfl
  have hhead : headCharJ bigAtom.atomText = 'a' := by
    unfold headCharJ bigAtom
    exact headD_replicate_pos 40000 'a' jw0 (by norm_num)
  have hcond : (!isWsJ (lastCharJ bigAtom.atomText) &&
      !isWsJ (headCharJ bigAtom.atomText)) = true := by
    rw [hlast, hhead]
    decide
  have hlen : (bigRun.append Mc bigRun).getTotalLength = 14464 := by
    rw [UniformTextSection.append.eq_def]
    dsimp only [bigRun]
    rw [show ([bigAtom] : List TextAtom).getLast? = some bigAtom from rfl]
    dsimp only
    rw [if_pos hcond]
    show (List.map TextAtom.numChars (List.dropLast [bigAtom] ++ _)).sum = _
    rw [show List.dropLast [bigAtom] = [] from rfl, List.nil_append]
    show u16 (bigAtom.numChars + bigAtom.numChars) + 0 = 14464
    unfold bigAtom u16
    norm_num
  have hco : coalesceSimilarSections Mc [bigRun, bigRun] =
      [bigRun.append Mc bigRun] := by
    rw [coalesceSimilarSections.eq_def]
    dsimp only
    rw [if_pos ⟨rfl, rfl⟩, coalesceSimilarSections.eq_def]
  rw [hco]
  have hone : getTotalNumChars [bigRun.append Mc bigRun] =
      (bigRun.append Mc bigRun).getTotalLength := by
    simp [getTotalNumChars]
  have hL : getTotalNumChars [bigRun, bigRun] = 80000 := by
    decide
  rw [hone, hlen, hL]
  norm_num

/-- Claim C2 (amended): for every well-formed document whose total text
is shorter than 2^16 characters, the coalescing pass leaves `fullText()`
and `totalLength()` unchanged, and after it completes no two adjacent
runs have an equal style (equal font and equal colour).  Without the
bound, `fullText()` is still preserved but `totalLength()` can change:
merging two word atoms stores their combined count through a `uint16`
cast (see the counterexample). -/
theorem c2_coalesce_invariants (M : Metrics)
    (doc : List UniformTextSection) (hw : wfDoc doc)
    (hb : (fullTextD doc).length < 65536) :
    fullTextD (coalesceSimilarSections M doc) = fullTextD doc ∧
    getTotalNumChars (coalesceSimilarSections M doc) =
      getTotalNumChars doc ∧
    adjacentDistinct (coalesceSimilarSections M doc) := by
  have ht := coalesce_text M doc
  refine ⟨ht, ?_, coalesce_adjacentDistinct M doc.length doc le_rfl⟩
  rw [getTotalNumChars_eq_text _ (coalesce_wf M doc hw hb), ht,
    ← getTotalNumChars_eq_text doc hw]

/-- A one-character run of style (font 1, colour 0), for witnesses. -/
def aRun : UniformTextSection :=
  { font := 1, colour := 0, passwordChar := jw0
    atoms := [{ atomText := ['a'], width := 1, numChars := 1 }] }

/-- A one-character run of the same style holding `"b"`. -/
def bRun : UniformTextSection :=
  { font := 1, colour := 0, passwordChar := jw0
    atoms := [{ atomText := ['b'], width := 1, numChars := 1 }] }

/-- Witness for C2's amended theorem on the two-run document `"ab"`. -/
theorem c2_coalesce_invariants_witness :
    (wfDoc [aRun, bRun] ∧ (fullTextD [aRun, bRun]).length < 65536) ∧
    (fullTextD (coalesceSimilarSections Mc [aRun, bRun]) =
        fullTextD [aRun, bRun] ∧
      getTotalNumChars (coalesceSimilarSections Mc [aRun, bRun]) =
        getTotalNumChars [aRun, bRun] ∧
      adjacentDistinct (coalesceSimilarSections Mc [aRun, bRun])) :=
  ⟨⟨by decide, by decide⟩,
   c2_coalesce_invariants Mc [aRun, bRun] (by decide) (by decide)⟩

/-- Splitting a well-formed, 16-bit-bounded atom list yields two
well-formed lists (the cut atom's two halves both fit the count
field). -/
theorem splitAtoms_wf (M : Metrics) (f : ℕ) (pwd : Char) :
    ∀ (as : List TextAtom) (k index : ℤ),
    (∀ a ∈ as, wfAtom a) → (∀ a ∈ as, a.atomText.length < 65536) →
    (∀ a ∈ (splitAtoms M f pwd k index as).1, wfAtom a ∧
      a.atomText.length < 65536) ∧
    (∀ a ∈ (splitAtoms M f pwd k index as).2, wfAtom a ∧
      a.atomText.length < 65536) := by
  intro as
  induction as with
  | nil =>
    intro k index _ _
    exact ⟨by intro a ha; simp [splitAtoms] at ha,
           by intro a ha; simp [splitAtoms] at ha⟩
  | cons a as ih =>
    intro k index hwf hbd
    have ha1 : wfAtom a := hwf a (by simp)
    have ha2 : a.atomText.length < 65536 := hbd a (by simp)
    by_cases h1 : index = k
    · refine ⟨by intro x hx; simp [splitAtoms, h1] at hx, ?_⟩
      intro x hx
      simp only [splitAtoms, if_pos h1] at hx
      exact ⟨hwf x hx, hbd x hx⟩
    · by_cases h2 : k ≥ index ∧ k < index + (a.numChars : ℤ)
      · have hoff : (k - index).toNat ≤ a.atomText.length := by
          have := ha1
          unfold wfAtom at this
          omega
        constructor
        · intro x hx
          simp only [splitAtoms, if_neg h1, if_pos h2,
            List.mem_singleton] at hx
          subst hx
          refine ⟨?_, ?_⟩
          · show u16 (k - index).toNat = (a.atomText.take _).length
            rw [List.length_take]
            unfold u16
            omega
          · rw [List.length_take]
            omega
        · intro x hx
          simp only [splitAtoms, if_neg h1, if_pos h2,
            List.mem_cons] at hx
          rcases hx with hx | hx
          · subst hx
            refine ⟨?_, ?_⟩
            · show u16 (suffixJ a.atomText (k - index).toNat).length =
                (suffixJ a.atomText (k - index).toNat).length
              unfold u16 suffixJ
              rw [List.length_drop]
              omega
            · unfold suffixJ
              rw [List.length_drop]
              omega
          · exact ⟨hwf x (by simp [hx]), hbd x (by simp [hx])⟩
      · have := ih k (index + (a.numChars : ℤ))
          (fun x hx => hwf x (by simp [hx]))
          (fun x hx => hbd x (by simp [hx]))
        constructor
        · intro x hx
          simp only [splitAtoms, if_neg h1, if_neg h2,
            List.mem_cons] at hx
          rcases hx with hx | hx
          · subst hx; exact ⟨ha1, ha2⟩
          · exact this.1 x hx
        · intro x hx
          simp only [splitAtoms, if_neg h1, if_neg h2] at hx
          exact this.2 x hx

/-- Splitting a well-formed bounded run strictly inside it yields two
well-formed runs of the expected lengths. -/
theorem split_wf (M : Metrics) (s : UniformTextSection) (k : ℤ)
    (hw : wfSec s) (hbd : s.allText.length < 65536) (h0 : 0 ≤ k) :
    wfSec (s.split M k).1 ∧ wfSec (s.split M k).2 ∧
    (s.split M k).1.getTotalLength = min k.toNat s.allText.length ∧
    (s.split M k).2.getTotalLength = s.allText.length - k.toNat := by
  have hbd' : ∀ a ∈ s.atoms, a.atomText.length < 65536 := by
    intro a ha
    have := member_text_le s.atoms a ha
    rw [← allText_eq] at this
    omega
  have hsw := splitAtoms_wf M s.font s.passwordChar s.atoms k 0 hw hbd'
  have htw := split_allText_wf M s k hw h0
  have hw1 : wfSec (s.split M k).1 := by
    intro a ha
    exact (hsw.1 a ha).1
  have hw2 : wfSec (s.split M k).2 := by
    intro a ha
    exact (hsw.2 a ha).1
  refine ⟨hw1, hw2, ?_, ?_⟩
  · rw [getTotalLength_eq_text _ hw1, htw.1, List.length_take]
  · rw [getTotalLength_eq_text _ hw2, htw.2, List.length_drop]

/-- A document-global character position lies strictly inside one of the
sections of the list, the first section's window starting at `idx`. -/
def strictInside (k : ℤ) : ℤ → List UniformTextSection → Prop
  | _, [] => False
  | idx, s :: rest => (idx < k ∧ k < idx + (s.getTotalLength : ℤ)) ∨
      strictInside k (idx + (s.getTotalLength : ℤ)) rest

theorem strictInside_of_le {k idx : ℤ} (h : k ≤ idx) :
    ∀ (ss : List UniformTextSection) (idx' : ℤ), idx ≤ idx' →
      ¬ strictInside k idx' ss := by
  intro ss
  induction ss with
  | nil => intro idx' _ hc; exact hc
  | cons s rest ih =>
    intro idx' hidx hc
    rcases hc with hc | hc
    · omega
    · exact ih (idx' + (s.getTotalLength : ℤ))
        (by have : (0:ℤ) ≤ (s.getTotalLength : ℤ) := Int.ofNat_nonneg _
            omega) hc

/-- Replacing one section by two sections with the same combined length
cannot create a strictly-inside position. -/
theorem strictInside_split_mono (k index : ℤ) (p1 p2 s : UniformTextSection)
    (rest : List UniformTextSection)
    (hL : p1.getTotalLength + p2.getTotalLength = s.getTotalLength) :
    strictInside k index (p1 :: p2 :: rest) →
      strictInside k index (s :: rest) := by
  intro h
  have hZ : (p1.getTotalLength : ℤ) + (p2.getTotalLength : ℤ)
      = (s.getTotalLength : ℤ) := by exact_mod_cast hL
  simp only [strictInside] at h ⊢
  rcases h with h | h | h
  · exact Or.inl ⟨h.1, by omega⟩
  · exact Or.inl ⟨by omega, by omega⟩
  · refine Or.inr ?_
    have he : index + (p1.getTotalLength : ℤ) + (p2.getTotalLength : ℤ)
        = index + (s.getTotalLength : ℤ) := by omega
    rwa [he] at h

/-- After splitting exactly at `k`, the position `k` is no longer
strictly inside the front pair (and the tail is checked separately). -/
theorem strictInside_after_split (k index : ℤ) (p1 p2 : UniformTextSection)
    (rest : List UniformTextSection)
    (h1 : (p1.getTotalLength : ℤ) = k - index)
    (htail : ¬ strictInside k
      (index + (p1.getTotalLength : ℤ) + (p2.getTotalLength : ℤ)) rest) :
    ¬ strictInside k index (p1 :: p2 :: rest) := by
  intro h
  simp only [strictInside] at h
  rcases h with h | h | h
  · omega
  · omega
  · exact htail h

/-- Splitting a well-formed bounded run strictly inside it: both halves
are well formed, bounded, non-empty, their lengths add back up, and the
first half's length is exactly the offset. -/
theorem split_inside_facts (M : Metrics) (s : UniformTextSection)
    (b index : ℤ) (hw : wfSec s) (hbd : s.allText.length < 65536)
    (hc : b > index ∧ b < index + (s.getTotalLength : ℤ)) :
    wfSec (s.split M (b - index)).1 ∧ wfSec (s.split M (b - index)).2 ∧
    (s.split M (b - index)).1.getTotalLength +
      (s.split M (b - index)).2.getTotalLength = s.getTotalLength ∧
    0 < (s.split M (b - index)).1.getTotalLength ∧
    0 < (s.split M (b - index)).2.getTotalLength ∧
    ((s.split M (b - index)).1.getTotalLength : ℤ) = b - index ∧
    (s.split M (b - index)).1.allText.length < 65536 ∧
    (s.split M (b - index)).2.allText.length < 65536 ∧
    (s.split M (b - index)).1.allText ++ (s.split M (b - index)).2.allText
      = s.allText := by
  have hTL : s.getTotalLength = s.allText.length := getTotalLength_eq_text s hw
  have h0 : (0:ℤ) ≤ b - index := by omega
  obtain ⟨hw1, hw2, hL1, hL2⟩ := split_wf M s (b - index) hw hbd h0
  have htw := split_allText_wf M s (b - index) hw h0
  have hlt : (b - index).toNat < s.allText.length := by omega
  refine ⟨hw1, hw2, by omega, by omega, by omega, by omega, ?_, ?_, ?_⟩
  · rw [htw.1, List.length_take]; omega
  · rw [htw.2, List.length_drop]; omega
  · rw [htw.1, htw.2]; exact List.take_append_drop _ _

/-- Main invariant of the boundary-splitting loop: on a well-formed,
non-empty, bounded document, with enough budget for the boundaries still
strictly inside a section, the loop preserves well-formedness,
non-emptiness, the bound and the text, and afterwards neither boundary
is strictly inside any section. -/
theorem splitRunsF_main (M : Metrics) (rs re : ℤ) (hrs : rs < re) :
    ∀ (budget : ℕ) (index : ℤ) (ss : List UniformTextSection),
    wfDoc ss → noEmptyDoc ss → (∀ s ∈ ss, s.allText.length < 65536) →
    (strictInside rs index ss → 1 ≤ budget) →
    (strictInside re index ss → 1 ≤ budget) →
    (strictInside rs index ss ∧ strictInside re index ss → 2 ≤ budget) →
    wfDoc (splitRunsF M rs re budget index ss) ∧
    noEmptyDoc (splitRunsF M rs re budget index ss) ∧
    (∀ s ∈ splitRunsF M rs re budget index ss, s.allText.length < 65536) ∧
    fullTextD (splitRunsF M rs re budget index ss) = fullTextD ss ∧
    ¬ strictInside rs index (splitRunsF M rs re budget index ss) ∧
    ¬ strictInside re index (splitRunsF M rs re budget index ss) := by
  intro budget index ss
  induction budget, index, ss using splitRunsF.induct M rs re with
  | case1 b idx =>
    intro _ _ _ _ _ _
    have key : splitRunsF M rs re b idx [] = [] := by
      rw [splitRunsF.eq_def]
    rw [key]
    refine ⟨?_, ?_, ?_, rfl, ?_, ?_⟩
    · intro x hx; simp at hx
    · intro x hx; simp at hx
    · intro x hx; simp at hx
    · simp [strictInside]
    · simp [strictInside]
  | case2 idx s rest nx h1 =>
    intro hw hne hbd f1 f2 f3
    exfalso
    have hnx : nx = idx + (s.getTotalLength : ℤ) := rfl
    have hrsOld : strictInside rs idx (s :: rest) :=
      Or.inl ⟨by omega, by omega⟩
    have := f1 hrsOld
    omega
  | case3 idx s rest nx h1 b p ih =>
    intro hw hne hbd f1 f2 f3
    have hnx : nx = idx + (s.getTotalLength : ℤ) := rfl
    have h1' : rs > idx ∧ rs < idx + (s.getTotalLength : ℤ) := by
      rw [← hnx]; exact h1
    have hws : wfSec s := hw s (by simp)
    have hbds : s.allText.length < 65536 := hbd s (by simp)
    obtain ⟨F1, F2, F3, F4, F5, F6, F7, F8, F9⟩ :=
      split_inside_facts M s rs idx hws hbds h1'
    have key : splitRunsF M rs re (b + 1) idx (s :: rest)
        = splitRunsF M rs re b idx
          ((s.split M (rs - idx)).1 :: (s.split M (rs - idx)).2 :: rest) := by
      rw [splitRunsF.eq_def]
      dsimp only
      rw [if_pos h1']
    have hwN : wfDoc ((s.split M (rs - idx)).1 ::
        (s.split M (rs - idx)).2 :: rest) := by
      intro x hx
      rcases List.mem_cons.mp hx with rfl | hx
      · exact F1
      rcases List.mem_cons.mp hx with rfl | hx
      · exact F2
      · exact hw x (by simp [hx])
    have hneN : noEmptyDoc ((s.split M (rs - idx)).1 ::
        (s.split M (rs - idx)).2 :: rest) := by
      intro x hx
      rcases List.mem_cons.mp hx with rfl | hx
      · exact F4
      rcases List.mem_cons.mp hx with rfl | hx
      · exact F5
      · exact hne x (by simp [hx])
    have hbdN : ∀ x ∈ (s.split M (rs - idx)).1 ::
        (s.split M (rs - idx)).2 :: rest, x.allText.length < 65536 := by
      intro x hx
      rcases List.mem_cons.mp hx with rfl | hx
      · exact F7
      rcases List.mem_cons.mp hx with rfl | hx
      · exact F8
      · exact hbd x (by simp [hx])
    have hZ : ((s.split M (rs - idx)).1.getTotalLength : ℤ)
        + ((s.split M (rs - idx)).2.getTotalLength : ℤ)
        = (s.getTotalLength : ℤ) := by exact_mod_cast F3
    have hflagRs : ¬ strictInside rs idx ((s.split M (rs - idx)).1 ::
        (s.split M (rs - idx)).2 :: rest) := by
      refine strictInside_after_split rs idx _ _ rest F6 ?_
      refine @strictInside_of_le rs
        (idx + ((s.split M (rs - idx)).1.getTotalLength : ℤ)
          + ((s.split M (rs - idx)).2.getTotalLength : ℤ)) (by omega)
        rest _ le_rfl
    have hrsOld : strictInside rs idx (s :: rest) :=
      Or.inl ⟨by omega, by omega⟩
    obtain ⟨a1, a2, a3, a4, a5, a6⟩ := ih hwN hneN hbdN
      (fun h => absurd h hflagRs)
      (fun h => by
        have hOld := strictInside_split_mono re idx _ _ s rest F3 h
        have := f3 ⟨hrsOld, hOld⟩
        omega)
      (fun h => absurd h.1 hflagRs)
    rw [key]
    refine ⟨a1, a2, a3, ?_, a5, a6⟩
    rw [a4, fullTextD_cons, fullTextD_cons, fullTextD_cons,
      ← List.append_assoc, F9]
  | case4 idx s rest nx h1 h2 =>
    intro hw hne hbd f1 f2 f3
    exfalso
    have hnx : nx = idx + (s.getTotalLength : ℤ) := rfl
    have hreOld : strictInside re idx (s :: rest) :=
      Or.inl ⟨by omega, by omega⟩
    have := f2 hreOld
    omega
  | case5 idx s rest nx h1 h2 b p ih =>
    intro hw hne hbd f1 f2 f3
    have hnx : nx = idx + (s.getTotalLength : ℤ) := rfl
    have h1' : ¬(rs > idx ∧ rs < idx + (s.getTotalLength : ℤ)) := by
      rw [← hnx]; exact h1
    have h2' : re > idx ∧ re < idx + (s.getTotalLength : ℤ) := by
      rw [← hnx]; exact h2
    have hws : wfSec s := hw s (by simp)
    have hbds : s.allText.length < 65536 := hbd s (by simp)
    obtain ⟨F1, F2, F3, F4, F5, F6, F7, F8, F9⟩ :=
      split_inside_facts M s re idx hws hbds h2'
    have key : splitRunsF M rs re (b + 1) idx (s :: rest)
        = splitRunsF M rs re b idx
          ((s.split M (re - idx)).1 :: (s.split M (re - idx)).2 :: rest) := by
      rw [splitRunsF.eq_def]
      dsimp only
      rw [if_neg h1', if_pos h2']
    have hwN : wfDoc ((s.split M (re - idx)).1 ::
        (s.split M (re - idx)).2 :: rest) := by
      intro x hx
      rcases List.mem_cons.mp hx with rfl | hx
      · exact F1
      rcases List.mem_cons.mp hx with rfl | hx
      · exact F2
      · exact hw x (by simp [hx])
    have hneN : noEmptyDoc ((s.split M (re - idx)).1 ::
        (s.split M (re - idx)).2 :: rest) := by
      intro x hx
      rcases List.mem_cons.mp hx with rfl | hx
      · exact F4
      rcases List.mem_cons.mp hx with rfl | hx
      · exact F5
      · exact hne x (by simp [hx])
    have hbdN : ∀ x ∈ (s.split M (re - idx)).1 ::
        (s.split M (re - idx)).2 :: rest, x.allText.length < 65536 := by
      intro x hx
      rcases List.mem_cons.mp hx with rfl | hx
      · exact F7
      rcases List.mem_cons.mp hx with rfl | hx
      · exact F8
      · exact hbd x (by simp [hx])
    have hZ : ((s.split M (re - idx)).1.getTotalLength : ℤ)
        + ((s.split M (re - idx)).2.getTotalLength : ℤ)
        = (s.getTotalLength : ℤ) := by exact_mod_cast F3
    have hflagRe : ¬ strictInside re idx ((s.split M (re - idx)).1 ::
        (s.split M (re - idx)).2 :: rest) := by
      refine strictInside_after_split re idx _ _ rest F6 ?_
      refine @strictInside_of_le re
        (idx + ((s.split M (re - idx)).1.getTotalLength : ℤ)
          + ((s.split M (re - idx)).2.getTotalLength : ℤ)) (by omega)
        rest _ le_rfl
    have hreOld : strictInside re idx (s :: rest) :=
      Or.inl ⟨by omega, by omega⟩
    obtain ⟨a1, a2, a3, a4, a5, a6⟩ := ih hwN hneN hbdN
      (fun h => by
        have hOld := strictInside_split_mono rs idx _ _ s rest F3 h
        have := f3 ⟨hOld, hreOld⟩
        omega)
      (fun h => absurd h hflagRe)
      (fun h => absurd h.2 hflagRe)
    rw [key]
    refine ⟨a1, a2, a3, ?_, a5, a6⟩
    rw [a4, fullTextD_cons, fullTextD_cons, fullTextD_cons,
      ← List.append_assoc, F9]
  | case6 b idx s rest nx h1 h2 h3 =>
    intro hw hne hbd f1 f2 f3
    have hnx : nx = idx + (s.getTotalLength : ℤ) := rfl
    have h1' : ¬(rs > idx ∧ rs < idx + (s.getTotalLength : ℤ)) := by
      rw [← hnx]; exact h1
    have h2' : ¬(re > idx ∧ re < idx + (s.getTotalLength : ℤ)) := by
      rw [← hnx]; exact h2
    have h3' : idx + (s.getTotalLength : ℤ) > re := by
      rw [← hnx]; exact h3
    have key : splitRunsF M rs re b idx (s :: rest) = s :: rest := by
      rw [splitRunsF.eq_def]
      dsimp only
      rw [if_neg h1', if_neg h2', if_pos h3']
    rw [key]
    refine ⟨hw, hne, hbd, rfl, ?_, ?_⟩
    · intro hS
      rcases hS with hS | hS
      · omega
      · exact @strictInside_of_le rs
          (idx + (s.getTotalLength : ℤ)) (by omega) rest _ le_rfl hS
    · intro hS
      rcases hS with hS | hS
      · omega
      · exact @strictInside_of_le re
          (idx + (s.getTotalLength : ℤ)) (by omega) rest _ le_rfl hS
  | case7 b idx s rest nx h1 h2 h3 ih =>
    intro hw hne hbd f1 f2 f3
    have hnx : nx = idx + (s.getTotalLength : ℤ) := rfl
    have h1' : ¬(rs > idx ∧ rs < idx + (s.getTotalLength : ℤ)) := by
      rw [← hnx]; exact h1
    have h2' : ¬(re > idx ∧ re < idx + (s.getTotalLength : ℤ)) := by
      rw [← hnx]; exact h2
    have h3' : ¬(idx + (s.getTotalLength : ℤ) > re) := by
      rw [← hnx]; exact h3
    have key : splitRunsF M rs re b idx (s :: rest)
        = s :: splitRunsF M rs re b (idx + (s.getTotalLength : ℤ)) rest := by
      rw [splitRunsF.eq_def]
      dsimp only
      rw [if_neg h1', if_neg h2', if_neg h3']
    obtain ⟨a1, a2, a3, a4, a5, a6⟩ :=
      ih (fun x hx => hw x (by simp [hx]))
        (fun x hx => hne x (by simp [hx]))
        (fun x hx => hbd x (by simp [hx]))
        (fun h => f1 (Or.inr h)) (fun h => f2 (Or.inr h))
        (fun h => f3 ⟨Or.inr h.1, Or.inr h.2⟩)
    rw [key]
    refine ⟨?_, ?_, ?_, ?_, ?_, ?_⟩
    · intro x hx
      rcases List.mem_cons.mp hx with rfl | hx
      · exact hw x (by simp)
      · exact a1 x hx
    · intro x hx
      rcases List.mem_cons.mp hx with rfl | hx
      · exact hne x (by simp)
      · exact a2 x hx
    · intro x hx
      rcases List.mem_cons.mp hx with rfl | hx
      · exact hbd x (by simp)
      · exact a3 x hx
    · rw [fullTextD_cons, fullTextD_cons, a4]
    · intro hS
      rcases hS with hS | hS
      · omega
      · exact a5 hS
    · intro hS
      rcases hS with hS | hS
      · omega
      · exact a6 hS

/-- Once neither boundary is strictly inside any section, the
boundary-splitting loop leaves the document unchanged (so the second
pass inside `remove` is the identity). -/
theorem splitRunsF_id (M : Metrics) (rs re : ℤ) :
    ∀ (budget : ℕ) (index : ℤ) (ss : List UniformTextSection),
    ¬ strictInside rs index ss → ¬ strictInside re index ss →
    splitRunsF M rs re budget index ss = ss := by
  intro budget index ss
  induction budget, index, ss using splitRunsF.induct M rs re with
  | case1 b idx =>
    intro _ _
    rw [splitRunsF.eq_def]
  | case2 idx s rest nx h1 =>
    intro hA _
    exact absurd (Or.inl ⟨h1.1, h1.2⟩) hA
  | case3 idx s rest nx h1 b p ih =>
    intro hA _
    exact absurd (Or.inl ⟨h1.1, h1.2⟩) hA
  | case4 idx s rest nx h1 h2 =>
    intro _ hB
    exact absurd (Or.inl ⟨h2.1, h2.2⟩) hB
  | case5 idx s rest nx h1 h2 b p ih =>
    intro _ hB
    exact absurd (Or.inl ⟨h2.1, h2.2⟩) hB
  | case6 b idx s rest nx h1 h2 h3 =>
    intro _ _
    rw [splitRunsF.eq_def]
    dsimp only
    rw [if_neg h1, if_neg h2, if_pos h3]
  | case7 b idx s rest nx h1 h2 h3 ih =>
    intro hA hB
    rw [splitRunsF.eq_def]
    dsimp only
    rw [if_neg h1, if_neg h2, if_neg h3]
    rw [ih (fun h => hA (Or.inr h)) (fun h => hB (Or.inr h))]

/-- Once the walk is past the range end, the snapshot loop collects
nothing more (on a document without empty runs). -/
theorem snapshotRuns_past (rs re : ℤ) :
    ∀ (ss : List UniformTextSection) (index : ℤ), noEmptyDoc ss →
    re ≤ index → snapshotRuns rs re index ss = [] := by
  intro ss
  induction ss with
  | nil => intro index _ _; rfl
  | cons s rest ih =>
    intro index hne hre
    by_cases hdeg : re ≤ rs
    · simp only [snapshotRuns, if_pos hdeg]
    · simp only [snapshotRuns, if_neg hdeg]
      have hL : 0 < s.getTotalLength := hne s (by simp)
      rw [if_neg (by omega),
        ih _ (fun x hx => hne x (by simp [hx])) (by omega)]
      rfl

/-- The ideal deletion: drop exactly the sections fully contained in
the range, with no range mutation and no early exit.  `deleteRuns`
computes this on the documents the editor builds. -/
def keepSpec (rs re : ℤ) : ℤ → List UniformTextSection →
    List UniformTextSection
  | _, [] => []
  | index, s :: rest =>
    (if rs ≤ index ∧ re ≥ index + (s.getTotalLength : ℤ) then []
     else [s]) ++ keepSpec rs re (index + (s.getTotalLength : ℤ)) rest

/-- Past the range end nothing is contained, so everything is kept. -/
theorem keepSpec_past (rs re : ℤ) :
    ∀ (ss : List UniformTextSection) (index : ℤ), noEmptyDoc ss →
    re ≤ index → keepSpec rs re index ss = ss := by
  intro ss
  induction ss with
  | nil => intro index _ _; rfl
  | cons s rest ih =>
    intro index hne hre
    have hL : 0 < s.getTotalLength := hne s (by simp)
    simp only [keepSpec]
    rw [if_neg (by omega),
      ih _ (fun x hx => hne x (by simp [hx])) (by omega)]
    rfl

/-- If the snapshot is empty, nothing was contained and the ideal
deletion keeps the whole document. -/
theorem keepSpec_of_snap_nil (rs re : ℤ) (hlt : rs < re) :
    ∀ (ss : List UniformTextSection) (index : ℤ),
    snapshotRuns rs re index ss = [] → keepSpec rs re index ss = ss := by
  intro ss
  induction ss with
  | nil => intro index _; rfl
  | cons s rest ih =>
    intro index hsnap
    simp only [snapshotRuns, if_neg (by omega : ¬ re ≤ rs)] at hsnap
    by_cases hcond : rs ≤ index ∧ re ≥ index + (s.getTotalLength : ℤ)
    · rw [if_pos hcond] at hsnap
      simp at hsnap
    · rw [if_neg hcond] at hsnap
      simp only [List.nil_append] at hsnap
      simp only [keepSpec, if_neg hcond]
      rw [ih _ hsnap]
      rfl

/-- Every section the ideal deletion keeps comes from the document. -/
theorem keepSpec_subset (rs re : ℤ) :
    ∀ (ss : List UniformTextSection) (index : ℤ)
      (x : UniformTextSection),
    x ∈ keepSpec rs re index ss → x ∈ ss := by
  intro ss
  induction ss with
  | nil => intro index x hx; exact absurd hx (by simp [keepSpec])
  | cons s rest ih =>
    intro index x hx
    simp only [keepSpec] at hx
    by_cases hcond : rs ≤ index ∧ re ≥ index + (s.getTotalLength : ℤ)
    · rw [if_pos hcond] at hx
      simp only [List.nil_append] at hx
      exact List.mem_cons_of_mem s (ih _ x hx)
    · rw [if_neg hcond] at hx
      rcases List.mem_cons.mp hx with rfl | hx
      · exact List.mem_cons_self x rest
      · exact List.mem_cons_of_mem s (ih _ x hx)

/-- On a document without empty runs, the source deletion loop (which
shrinks the range end as it removes and exits early when the remaining
range collapses) computes exactly the ideal deletion.  `D` is the
length already removed: the loop runs with the shrunken end `re - D`
and an index that lags the true document position by `D`. -/
theorem deleteRuns_eq_keepSpec (rs : ℤ) :
    ∀ (ss : List UniformTextSection) (re index D : ℤ),
    noEmptyDoc ss → 0 ≤ D → (D = 0 ∨ rs ≤ index) →
    deleteRuns rs (re - D) index ss = keepSpec rs re (index + D) ss := by
  intro ss
  induction ss with
  | nil => intro re index D _ _ _; rfl
  | cons s rest ih =>
    intro re index D hne hD hcase
    have hL : 0 < s.getTotalLength := hne s (by simp)
    have hne' : noEmptyDoc rest := fun x hx => hne x (by simp [hx])
    by_cases hcl : rs ≤ index ∧ re - D ≥ index + (s.getTotalLength : ℤ)
    · have hcs : rs ≤ index + D ∧
          re ≥ (index + D) + (s.getTotalLength : ℤ) := by omega
      simp only [deleteRuns, keepSpec, if_pos hcl, if_pos hcs,
        List.nil_append]
      by_cases hbrk : re - D - (index + (s.getTotalLength : ℤ) - index) = rs
      · rw [if_pos hbrk]
        rw [keepSpec_past rs re rest _ hne' (by omega)]
      · rw [if_neg hbrk]
        have heq : re - D - (index + (s.getTotalLength : ℤ) - index)
            = re - (D + (s.getTotalLength : ℤ)) := by ring
        rw [heq, ih re index (D + (s.getTotalLength : ℤ)) hne'
          (by omega) (Or.inr hcl.1)]
        have heq2 : index + (D + (s.getTotalLength : ℤ))
            = index + D + (s.getTotalLength : ℤ) := by ring
        rw [heq2]
    · have hcs : ¬(rs ≤ index + D ∧
          re ≥ (index + D) + (s.getTotalLength : ℤ)) := by
        rcases hcase with rfl | hcase
        · simpa using hcl
        · intro hc
          exact hcl ⟨hcase, by omega⟩
      simp only [deleteRuns, keepSpec, if_neg hcl, if_neg hcs]
      rw [ih re (index + (s.getTotalLength : ℤ)) D hne' hD
        (by rcases hcase with rfl | hcase
            · exact Or.inl rfl
            · exact Or.inr (by omega))]
      have heq : index + (s.getTotalLength : ℤ) + D
          = index + D + (s.getTotalLength : ℤ) := by ring
      rw [heq]
      rfl

/-- Coalescing a well-formed bounded document without empty runs
produces no empty runs. -/
theorem coalesce_noEmpty (M : Metrics) :
    ∀ (ss : List UniformTextSection), wfDoc ss →
    (fullTextD ss).length < 65536 → noEmptyDoc ss →
    noEmptyDoc (coalesceSimilarSections M ss) := by
  intro ss
  induction ss using coalesceSimilarSections.induct M with
  | case1 =>
    intro _ _ hne
    simp only [coalesceSimilarSections]
    exact hne
  | case2 s =>
    intro _ _ hne
    simp only [coalesceSimilarSections]
    exact hne
  | case3 s1 s2 rest hstyle ih =>
    intro hw hbd hne
    simp only [coalesceSimilarSections]
    rw [if_pos hstyle]
    have hw1 : wfSec s1 := hw s1 (by simp)
    have hw2 : wfSec s2 := hw s2 (by simp)
    have hbd12 : (s1.allText ++ s2.allText).length < 65536 := by
      have := hbd
      rw [fullTextD_cons, fullTextD_cons] at this
      simp only [List.length_append] at this ⊢
      omega
    have hwa : wfSec (s1.append M s2) := append_wf M s1 s2 hw1 hw2 hbd12
    have htext : (s1.append M s2).allText = s1.allText ++ s2.allText :=
      append_allText M s1 s2
    refine ih ?_ ?_ ?_
    · intro x hx
      rcases List.mem_cons.mp hx with rfl | hx
      · exact hwa
      · exact hw x (by simp [hx])
    · rw [fullTextD_cons, htext]
      rw [fullTextD_cons, fullTextD_cons] at hbd
      simpa using hbd
    · intro x hx
      rcases List.mem_cons.mp hx with rfl | hx
      · rw [getTotalLength_eq_text _ hwa, htext]
        have h1 : 0 < s1.getTotalLength := hne s1 (by simp)
        rw [getTotalLength_eq_text _ hw1] at h1
        simp only [List.length_append]
        omega
      · exact hne x (by simp [hx])
  | case4 s1 s2 rest hstyle ih =>
    intro hw hbd hne
    simp only [coalesceSimilarSections]
    rw [if_neg hstyle]
    intro x hx
    rcases List.mem_cons.mp hx with rfl | hx
    · exact hne x (by simp)
    · refine ih ?_ ?_ ?_ x hx
      · intro y hy; exact hw y (by simp [hy])
      · rw [fullTextD_cons] at hbd
        simp only [List.length_append] at hbd
        omega
      · intro y hy; exact hne y (by simp [hy])

/-- On an aligned, well-formed document without empty runs, the
snapshot is one contiguous block of the text: the text splits as
`X ++ snapshot ++ Z`, the ideal deletion's text is `X ++ Z`, and when
the snapshot is non-empty the prefix `X` ends exactly at the range
start. -/
theorem snapshot_splice (rs re : ℤ) (hlt : rs < re) :
    ∀ (ss : List UniformTextSection) (index : ℤ),
    wfDoc ss → noEmptyDoc ss →
    ¬ strictInside rs index ss → ¬ strictInside re index ss →
    ∃ X Z,
      fullTextD ss = X ++ fullTextD (snapshotRuns rs re index ss) ++ Z ∧
      fullTextD (keepSpec rs re index ss) = X ++ Z ∧
      (snapshotRuns rs re index ss ≠ [] →
        X.length = (rs - index).toNat) := by
  intro ss
  induction ss with
  | nil =>
    intro index _ _ _ _
    refine ⟨[], [], by simp [snapshotRuns, fullTextD_nil],
      by simp [keepSpec, fullTextD_nil], ?_⟩
    intro h
    exact absurd rfl h
  | cons s rest ih =>
    intro index hw hne hA hB
    have hL : 0 < s.getTotalLength := hne s (by simp)
    have hws : wfSec s := hw s (by simp)
    have hTlen : s.getTotalLength = s.allText.length :=
      getTotalLength_eq_text s hws
    have hnerest : noEmptyDoc rest := fun x hx => hne x (by simp [hx])
    have hA' : ¬ strictInside rs (index + (s.getTotalLength : ℤ)) rest :=
      fun h => hA (Or.inr h)
    have hB' : ¬ strictInside re (index + (s.getTotalLength : ℤ)) rest :=
      fun h => hB (Or.inr h)
    obtain ⟨X', Z', e1, e2, e3⟩ := ih (index + (s.getTotalLength : ℤ))
      (fun x hx => hw x (by simp [hx])) hnerest hA' hB'
    have hsnap : snapshotRuns rs re index (s :: rest)
        = (if rs ≤ index ∧ re ≥ index + (s.getTotalLength : ℤ)
           then [s] else [])
          ++ snapshotRuns rs re (index + (s.getTotalLength : ℤ)) rest := by
      simp only [snapshotRuns, if_neg (by omega : ¬ re ≤ rs)]
    have hkeep : keepSpec rs re index (s :: rest)
        = (if rs ≤ index ∧ re ≥ index + (s.getTotalLength : ℤ)
           then [] else [s])
          ++ keepSpec rs re (index + (s.getTotalLength : ℤ)) rest := rfl
    by_cases hcond : rs ≤ index ∧ re ≥ index + (s.getTotalLength : ℤ)
    · by_cases hsr : snapshotRuns rs re
          (index + (s.getTotalLength : ℤ)) rest = []
      · refine ⟨[], fullTextD rest, ?_, ?_, ?_⟩
        · rw [hsnap, if_pos hcond, hsr]
          simp [fullTextD_cons, fullTextD_append, fullTextD_nil]
        · rw [hkeep, if_pos hcond, List.nil_append,
            keepSpec_of_snap_nil rs re hlt rest _ hsr, List.nil_append]
        · intro _
          simp only [List.length_nil]
          omega
      · have hX' : X' = [] := by
          have h3 := e3 hsr
          have hlen : X'.length = 0 := by omega
          exact List.eq_nil_of_length_eq_zero hlen
        refine ⟨[], Z', ?_, ?_, ?_⟩
        · rw [hsnap, if_pos hcond, fullTextD_cons, e1, hX']
          simp [fullTextD_cons, fullTextD_append, fullTextD_nil]
        · rw [hkeep, if_pos hcond, List.nil_append, e2, hX']
        · intro _
          simp only [List.length_nil]
          omega
    · refine ⟨s.allText ++ X', Z', ?_, ?_, ?_⟩
      · rw [hsnap, if_neg hcond, List.nil_append, fullTextD_cons, e1]
        simp [List.append_assoc]
      · rw [hkeep, if_neg hcond, fullTextD_append, e2]
        simp [fullTextD_cons, fullTextD_nil, List.append_assoc]
      · intro hsne
        have hsr : snapshotRuns rs re
            (index + (s.getTotalLength : ℤ)) rest ≠ [] := by
          rw [hsnap, if_neg hcond, List.nil_append] at hsne
          exact hsne
        by_cases hre2 : re ≥ index + (s.getTotalLength : ℤ)
        · have hnl : ¬(rs ≤ index) := fun hc => hcond ⟨hc, hre2⟩
          have hno1 : ¬(rs < index + (s.getTotalLength : ℤ)) := fun hc =>
            hA (Or.inl ⟨by omega, hc⟩)
          have h3 := e3 hsr
          simp only [List.length_append, h3]
          omega
        · exact absurd (snapshotRuns_past rs re rest _ hnerest (by omega))
            hsr

/-- Reinserting an empty snapshot never changes the text, wherever the
index points (the walk may split a run, which is text-preserving, and
the post-loop append adds nothing). -/
theorem reinsertGo_empty_snap (M : Metrics) (i : ℤ) :
    ∀ (ss : List UniformTextSection) (index : ℤ),
    fullTextD (reinsertGo M [] i index ss).1 = fullTextD ss := by
  intro ss
  induction ss with
  | nil => intro index; rfl
  | cons s rest ih =>
    intro index
    simp only [reinsertGo]
    by_cases h1 : i = index
    · rw [if_pos h1]
      rfl
    · rw [if_neg h1]
      by_cases h2 : i > index ∧ i < index + (s.getTotalLength : ℤ)
      · rw [if_pos h2]
        simp only [List.nil_append, fullTextD_cons]
        rw [← List.append_assoc]
        rw [split_allText M s (i - index)]
      · rw [if_neg h2]
        simp only [fullTextD_cons, ih]

/-- `reinsert` with an empty snapshot leaves the text unchanged. -/
theorem reinsertOp_empty_snap (M : Metrics) (i : ℤ)
    (doc : List UniformTextSection) :
    fullTextD (reinsertOp M i [] doc) = fullTextD doc := by
  unfold reinsertOp
  dsimp only
  by_cases h : (reinsertGo M [] i 0 doc).2 = i
  · rw [if_pos h, coalesce_text, fullTextD_append, reinsertGo_empty_snap]
    simp [fullTextD_nil]
  · rw [if_neg h, coalesce_text, reinsertGo_empty_snap]

/-- Walking a well-formed document without empty runs, `reinsert`'s
loop splices the snapshot's text in at the requested index; if the
index sits exactly at the end of the walked text the loop inserts
nothing and finishes with `nextIndex` equal to the index (triggering
the source's post-loop append). -/
theorem reinsertGo_splice (M : Metrics) (snap : List UniformTextSection)
    (i : ℤ) :
    ∀ (ss : List UniformTextSection) (index : ℤ),
    wfDoc ss → noEmptyDoc ss → index ≤ i →
    i ≤ index + ((fullTextD ss).length : ℤ) →
    (fullTextD (reinsertGo M snap i index ss).1
        = (fullTextD ss).take (i - index).toNat ++ fullTextD snap
          ++ (fullTextD ss).drop (i - index).toNat ∧
      (reinsertGo M snap i index ss).2 ≠ i) ∨
    (i = index + ((fullTextD ss).length : ℤ) ∧
      (reinsertGo M snap i index ss).1 = ss ∧
      (reinsertGo M snap i index ss).2 = i) := by
  intro ss
  induction ss with
  | nil =>
    intro index _ _ hle hge
    simp only [fullTextD_nil, List.length_nil, Nat.cast_zero] at hge ⊢
    refine Or.inr ⟨by omega, rfl, ?_⟩
    show index = i
    omega
  | cons s rest ih =>
    intro index hw hne hle hge
    have hL : 0 < s.getTotalLength := hne s (by simp)
    have hws : wfSec s := hw s (by simp)
    have hTlen : s.getTotalLength = s.allText.length :=
      getTotalLength_eq_text s hws
    simp only [reinsertGo]
    by_cases h1 : i = index
    · left
      rw [if_pos h1]
      constructor
      · have h0 : (i - index).toNat = 0 := by omega
        rw [h0, List.take_zero, List.drop_zero, List.nil_append,
          fullTextD_append]
      · show index + (s.getTotalLength : ℤ) ≠ i
        omega
    · rw [if_neg h1]
      by_cases h2 : i > index ∧ i < index + (s.getTotalLength : ℤ)
      · left
        rw [if_pos h2]
        constructor
        · have hsp := split_allText_wf M s (i - index) hws (by omega)
          have hn : (i - index).toNat ≤ s.allText.length := by omega
          show fullTextD ((s.split M (i - index)).1 ::
              (snap ++ (s.split M (i - index)).2 :: rest))
            = (fullTextD (s :: rest)).take (i - index).toNat
              ++ fullTextD snap
              ++ (fullTextD (s :: rest)).drop (i - index).toNat
          rw [fullTextD_cons, fullTextD_append, fullTextD_cons,
            hsp.1, hsp.2, fullTextD_cons,
            List.take_append_eq_append_take,
            List.drop_append_eq_append_drop]
          have hz : (i - index).toNat - s.allText.length = 0 := by omega
          rw [hz, List.take_zero, List.drop_zero, List.append_nil]
          simp [List.append_assoc]
        · show index + (s.getTotalLength : ℤ) ≠ i
          omega
      · rw [if_neg h2]
        have hadv : index + (s.getTotalLength : ℤ) ≤ i := by omega
        have hge' : i ≤ (index + (s.getTotalLength : ℤ))
            + ((fullTextD rest).length : ℤ) := by
          rw [fullTextD_cons, List.length_append] at hge
          push_cast at hge ⊢
          omega
        have hlen : s.allText.length ≤ (i - index).toNat := by omega
        rcases ih (index + (s.getTotalLength : ℤ))
          (fun x hx => hw x (by simp [hx]))
          (fun x hx => hne x (by simp [hx])) hadv hge' with
          ⟨ht, hn2⟩ | ⟨hi, hr1, hr2⟩
        · left
          refine ⟨?_, hn2⟩
          show fullTextD (s ::
              (reinsertGo M snap i (index + (s.getTotalLength : ℤ)) rest).1)
            = (fullTextD (s :: rest)).take (i - index).toNat
              ++ fullTextD snap
              ++ (fullTextD (s :: rest)).drop (i - index).toNat
          rw [fullTextD_cons, ht, fullTextD_cons,
            List.take_append_eq_append_take,
            List.drop_append_eq_append_drop,
            List.take_of_length_le hlen,
            List.drop_of_length_le hlen]
          have hz : (i - index).toNat - s.allText.length
              = (i - (index + (s.getTotalLength : ℤ))).toNat := by omega
          rw [hz]
          simp [List.append_assoc]
        · right
          refine ⟨?_, ?_, ?_⟩
          · rw [fullTextD_cons, List.length_append]
            push_cast
            omega
          · show s :: (reinsertGo M snap i
                (index + (s.getTotalLength : ℤ)) rest).1 = s :: rest
            rw [hr1]
          · exact hr2

/-- A member run's text is no longer than the whole document's text. -/
theorem section_text_le (doc : List UniformTextSection) :
    ∀ s ∈ doc, s.allText.length ≤ (fullTextD doc).length := by
  induction doc with
  | nil => intro s hs; simp at hs
  | cons x rest ih =>
    intro s hs
    rw [fullTextD_cons, List.length_append]
    rcases List.mem_cons.mp hs with rfl | hs
    · omega
    · have := ih s hs
      omega

/-- `reinsert` on a well-formed document without empty runs, at an
in-range index, splices the snapshot's text in at that index. -/
theorem reinsertOp_splice (M : Metrics) (snap : List UniformTextSection)
    (i : ℤ) (doc : List UniformTextSection)
    (hw : wfDoc doc) (hne : noEmptyDoc doc)
    (h0 : 0 ≤ i) (hle : i ≤ ((fullTextD doc).length : ℤ)) :
    fullTextD (reinsertOp M i snap doc)
      = (fullTextD doc).take i.toNat ++ fullTextD snap
        ++ (fullTextD doc).drop i.toNat := by
  have h := reinsertGo_splice M snap i doc 0 hw hne h0 (by simpa using hle)
  unfold reinsertOp
  dsimp only
  rcases h with ⟨ht, hn2⟩ | ⟨hi, h1, h2⟩
  · rw [if_neg hn2, coalesce_text]
    simpa using ht
  · rw [if_pos h2, coalesce_text, fullTextD_append, h1]
    have hiN : i.toNat = (fullTextD doc).length := by omega
    rw [List.take_of_length_le (by omega), List.drop_of_length_le (by omega)]
    simp

/-- Claim C1 (amended): on a well-formed document with no empty runs
and total text shorter than 2^16 characters, for every range with
`0 ≤ start ≤ end`, performing `remove` on the range after taking the
undo path's snapshot of the contained runs (boundary runs split first)
and then performing `reinsert` of that snapshot at the range start
reproduces `fullText()` exactly.  (On documents containing zero-length
runs the source's post-loop append can fire a second time and duplicate
the snapshot, so the unqualified claim is false.) -/
theorem c1_remove_reinsert_round_trip (M : Metrics)
    (doc : List UniformTextSection) (rs re : ℤ)
    (hw : wfDoc doc) (hne : noEmptyDoc doc)
    (hbd : (fullTextD doc).length < 65536)
    (h0 : 0 ≤ rs) (hre : rs ≤ re) :
    fullTextD (reinsertOp M rs (removeWithSnap M rs re doc).2
      (removeWithSnap M rs re doc).1) = fullTextD doc := by
  by_cases heq : rs = re
  · unfold removeWithSnap
    rw [if_pos heq]
    exact reinsertOp_empty_snap M rs doc
  · have hlt : rs < re := lt_of_le_of_ne hre heq
    have hbd' : ∀ s ∈ doc, s.allText.length < 65536 := by
      intro s hs
      have := section_text_le doc s hs
      omega
    obtain ⟨hw1, hne1, hbd1, htext1, hArs, hAre⟩ :=
      splitRunsF_main M rs re hlt 2 0 doc hw hne hbd'
        (fun _ => by omega) (fun _ => by omega) (fun _ => by omega)
    obtain ⟨X, Z, e1, e2, e3⟩ := snapshot_splice rs re hlt
      (splitRunsF M rs re 2 0 doc) 0 hw1 hne1 hArs hAre
    have hid : splitRuns M rs re (splitRunsF M rs re 2 0 doc)
        = splitRunsF M rs re 2 0 doc :=
      splitRunsF_id M rs re 2 0 _ hArs hAre
    have hdel : deleteRuns rs re 0 (splitRunsF M rs re 2 0 doc)
        = keepSpec rs re 0 (splitRunsF M rs re 2 0 doc) := by
      have := deleteRuns_eq_keepSpec rs (splitRunsF M rs re 2 0 doc)
        re 0 0 hne1 le_rfl (Or.inl rfl)
      simpa using this
    have hkw : wfDoc (keepSpec rs re 0 (splitRunsF M rs re 2 0 doc)) :=
      fun x hx => hw1 x (keepSpec_subset rs re _ 0 x hx)
    have hkne : noEmptyDoc
        (keepSpec rs re 0 (splitRunsF M rs re 2 0 doc)) :=
      fun x hx => hne1 x (keepSpec_subset rs re _ 0 x hx)
    have hd1bd : (fullTextD (splitRunsF M rs re 2 0 doc)).length
        < 65536 := by rw [htext1]; exact hbd
    have hkbd : (fullTextD
        (keepSpec rs re 0 (splitRunsF M rs re 2 0 doc))).length
        < 65536 := by
      rw [e2]
      rw [e1] at hd1bd
      simp only [List.length_append] at hd1bd ⊢
      omega
    have hrw : removeWithSnap M rs re doc
        = (coalesceSimilarSections M
            (keepSpec rs re 0 (splitRunsF M rs re 2 0 doc)),
           snapshotRuns rs re 0 (splitRunsF M rs re 2 0 doc)) := by
      unfold removeWithSnap removeOp splitRuns
      rw [if_neg heq]
      dsimp only
      rw [if_neg heq]
      rw [show splitRunsF M rs re 2 0 (splitRunsF M rs re 2 0 doc)
          = splitRunsF M rs re 2 0 doc from hid, hdel]
    rw [hrw]
    dsimp only
    by_cases hsnil : snapshotRuns rs re 0 (splitRunsF M rs re 2 0 doc)
        = []
    · rw [hsnil, reinsertOp_empty_snap, coalesce_text, e2]
      rw [hsnil, fullTextD_nil, List.append_nil] at e1
      rw [← e1, htext1]
    · have hX : X.length = rs.toNat := by
        have := e3 hsnil
        simpa using this
      have hw2 : wfDoc (coalesceSimilarSections M
          (keepSpec rs re 0 (splitRunsF M rs re 2 0 doc))) :=
        coalesce_wf M _ hkw hkbd
    
      have hne2 : noEmptyDoc (coalesceSimilarSections M
          (keepSpec rs re 0 (splitRunsF M rs re 2 0 doc))) :=
        coalesce_noEmpty M _ hkw hkbd hkne
      have htext2 : fullTextD (coalesceSimilarSections M
          (keepSpec rs re 0 (splitRunsF M rs re 2 0 doc))) = X ++ Z := by
        rw [coalesce_text, e2]
      have hrs_le : rs ≤ ((fullTextD (coalesceSimilarSections M
          (keepSpec rs re 0 (splitRunsF M rs re 2 0 doc)))).length
            : ℤ) := by
        rw [htext2]
        simp only [List.length_append]
        omega
      rw [reinsertOp_splice M _ rs _ hw2 hne2 h0 hrs_le, htext2]
      rw [show rs.toNat = X.length from hX.symm]
      rw [List.take_append_eq_append_take,
        List.drop_append_eq_append_drop, List.take_length,
        List.drop_length, Nat.sub_self, List.take_zero, List.drop_zero,
        List.append_nil, List.nil_append]
      rw [← e1, htext1]

/-- A one-character run `"a"` (font 1) for the C1 counterexample. -/
def c1secA : UniformTextSection :=
  { font := 1, colour := 0, passwordChar := jw0
    atoms := [{ atomText := ['a'], width := 1, numChars := 1 }] }

/-- A zero-length run (no atoms, font 2): representable in the section
list even though the editor's own operations never produce one. -/
def c1secZero : UniformTextSection :=
  { font := 2, colour := 0, passwordChar := jw0, atoms := [] }

/-- A one-character run `"b"` (font 3) for the C1 counterexample. -/
def c1secB : UniformTextSection :=
  { font := 3, colour := 0, passwordChar := jw0
    atoms := [{ atomText := ['b'], width := 1, numChars := 1 }] }

/-- Claim C1 counterexample: on the document `"a" + "" + "b"` that
contains a zero-length run, removing range `[0,1)` with a snapshot and
reinserting the snapshot at 0 yields `"aba"`, not `"ab"`: the reinsert
loop places the snapshot before the zero-length run and finishes with
`nextIndex == insertIndex`, so the source's post-loop check appends the
snapshot a second time. -/
theorem c1_round_trip_counterexample :
    fullTextD (reinsertOp Mc 0 (removeWithSnap Mc 0 1
        [c1secA, c1secZero, c1secB]).2
      (removeWithSnap Mc 0 1 [c1secA, c1secZero, c1secB]).1)
      ≠ fullTextD [c1secA, c1secZero, c1secB] := by
  have h1 : removeWithSnap Mc 0 1 [c1secA, c1secZero, c1secB]
      = ([c1secZero, c1secB], [c1secA, c1secZero]) := by
    simp [removeWithSnap, removeOp, splitRuns, splitRunsF, snapshotRuns,
      deleteRuns, coalesceSimilarSections,
      UniformTextSection.getTotalLength, c1secA, c1secZero, c1secB]
  rw [h1]
  have h2 : reinsertOp Mc 0 [c1secA, c1secZero] [c1secZero, c1secB]
      = [c1secA, c1secZero, c1secB, c1secA, c1secZero] := by
    simp [reinsertOp, reinsertGo, coalesceSimilarSections,
      UniformTextSection.append, UniformTextSection.getTotalLength,
      c1secA, c1secZero, c1secB]
  rw [h2]
  decide

/-- C1 witness: the amended round trip at the concrete one-run document
`"ab cd"` with range `[1, 3)`. -/
theorem c1_remove_reinsert_round_trip_witness :
    (wfDoc [abcdSec] ∧ noEmptyDoc [abcdSec] ∧
      (fullTextD [abcdSec]).length < 65536 ∧
      (0 : ℤ) ≤ 1 ∧ (1 : ℤ) ≤ 3) ∧
    fullTextD (reinsertOp Mc 1 (removeWithSnap Mc 1 3 [abcdSec]).2
      (removeWithSnap Mc 1 3 [abcdSec]).1) = fullTextD [abcdSec] :=
  ⟨⟨by decide, by decide, by decide, by decide, by decide⟩,
   c1_remove_reinsert_round_trip Mc [abcdSec] 1 3 (by decide) (by decide)
     (by decide) (by decide) (by decide)⟩

/-- `juce::Justification` restricted to the flags the iterator tests. -/
structure JustFlags where
  horizontallyCentred : Bool
  rightJ : Bool
  top : Bool
  bottom : Bool
deriving DecidableEq

/-- The editor-supplied environment of `UnicodeTextEditor::Iterator`:
the section list and the constructor parameters (maximum text extent,
word-wrap width, password character, line spacing, justification) plus
the font metrics and the editor's current font. -/
structure ItEnv where
  M : Metrics
  sections : List UniformTextSection
  just : JustFlags
  bottomRightX : ℚ
  bottomRightY : ℚ
  wordWrapWidth : ℚ
  passwordChar : Char
  lineSpacing : ℚ
  editorFont : ℕ

/-- The mutable fields of `UnicodeTextEditor::Iterator`.  The source's
`atom` pointer is `none`, a pointer into the current section
(`isLong = false`), or a pointer to the member `longAtom`
(`isLong = true`); in the model `atom` always holds the pointed-at
value. -/
structure ItState where
  indexInText : ℤ
  lineY : ℚ
  lineHeight : ℚ
  maxDescent : ℚ
  atomX : ℚ
  atomRight : ℚ
  atom : Option TextAtom
  isLong : Bool
  longAtom : TextAtom
  sectionIndex : ℕ
  atomIndex : ℕ

/-- Placeholder for `getUnchecked` reads the control flow never uses on
the documents under consideration. -/
def dummyAtom : TextAtom := { atomText := [], width := 0, numChars := 0 }

/-- Placeholder section for out-of-range `getUnchecked`. -/
def dummySec : UniformTextSection :=
  { font := 0, colour := 0, atoms := [], passwordChar := jw0 }

/-- `sections.getUnchecked (i)`. -/
def secAt (env : ItEnv) (i : ℕ) : UniformTextSection :=
  env.sections.getD i dummySec

/-- `Iterator::shouldWrap`: `(x - 0.0001f) >= wordWrapWidth`. -/
def shouldWrapIt (env : ItEnv) (x : ℚ) : Prop :=
  env.wordWrapWidth ≤ x - 1/10000

instance (env : ItEnv) (x : ℚ) : Decidable (shouldWrapIt env x) := by
  unfold shouldWrapIt; infer_instance

/-- `Iterator::getJustificationOffsetX`. -/
def getJustificationOffsetX (env : ItEnv) (lineWidth : ℚ) : ℚ :=
  if env.just.horizontallyCentred then
    max 0 ((env.bottomRightX - lineWidth) * (1/2))
  else if env.just.rightJ then max 0 (env.bottomRightX - lineWidth)
  else 0

/-- `juce::roundToInt` on the model's exact rationals: round half up. -/
def roundToIntQ (q : ℚ) : ℤ := ⌊q + 1/2⌋

/-- All atoms of the document in order. -/
def atomsOf (ss : List UniformTextSection) : List TextAtom :=
  (ss.map UniformTextSection.atoms).flatten

/-- A fuel value larger than the number of loop iterations any of the
iterator's loops can perform on the documents under consideration
(every iteration either consumes an atom or crosses a section
boundary). -/
def itFuel (env : ItEnv) : ℕ :=
  (atomsOf env.sections).length + env.sections.length + 2

/-- The `while` loop of `Iterator::beginNewLine`: scan forward from the
current position accumulating the width of the upcoming line (stopping
at a wrap point or a newline atom) and, when the scan crosses a section
boundary, fold that section's font height and descent into the line's.
The loop advances an atom or a section each iteration, so the fuel
(passed `itFuel`) never runs out on the calls the iterator makes;
returns (lineWidth, lineHeight, maxDescent). -/
def bnlGo (env : ItEnv) :
    ℕ → ℕ → ℕ → ℚ → ℚ → ℚ → ℚ → ℚ × ℚ × ℚ
  | 0, _, _, lineWidth, _, lh, md => (lineWidth, lh, md)
  | fuel + 1, tsi, tai, lineWidth, nextLineWidth, lh, md =>
    if shouldWrapIt env nextLineWidth then (lineWidth, lh, md)
    else
      let lineWidth := nextLineWidth
      if tsi ≥ env.sections.length then (lineWidth, lh, md)
      else
        let sec := secAt env tsi
        if tai ≥ sec.atoms.length then
          if tsi + 1 ≥ env.sections.length then (lineWidth, lh, md)
          else
            let sec2 := secAt env (tsi + 1)
            if 0 < sec2.atoms.length then
              let nextAtom := sec2.atoms.getD 0 dummyAtom
              let nlw := lineWidth + nextAtom.width
              if shouldWrapIt env nlw ∨ nextAtom.isNewLine then
                (lineWidth, lh, md)
              else
                bnlGo env fuel (tsi + 1) 1 lineWidth nlw
                  (max lh (env.M.fontHeight sec2.font))
                  (max md (env.M.fontDescent sec2.font))
            else (lineWidth, lh, md)
        else
          let nextAtom := sec.atoms.getD tai dummyAtom
          let nlw := lineWidth + nextAtom.width
          if shouldWrapIt env nlw ∨ nextAtom.isNewLine then
            (lineWidth, lh, md)
          else bnlGo env fuel tsi (tai + 1) lineWidth nlw lh md

/-- `Iterator::beginNewLine`. -/
def beginNewLineIt (env : ItEnv) (st : ItState) : ItState :=
  let sec := secAt env st.sectionIndex
  let q := bnlGo env (itFuel env) st.sectionIndex st.atomIndex 0
    (match st.atom with | some a => a.width | none => 0)
    (env.M.fontHeight sec.font) (env.M.fontDescent sec.font)
  { st with lineY := st.lineY + st.lineHeight * env.lineSpacing
            lineHeight := q.2.1
            maxDescent := q.2.2
            atomX := getJustificationOffsetX env q.1 }

/-- The glyph-split scan of `Iterator::chunkLongAtom`: the first glyph
index whose right edge wraps, else the glyph count. -/
def glyphSplitGo (env : ItEnv) (f : ℕ) (t : List Char) :
    ℕ → ℕ → ℕ
  | 0, i => i
  | fuel + 1, i =>
    if i ≥ env.M.numGlyphs f t then i
    else if shouldWrapIt env (env.M.glyphRight f t i) then i
    else glyphSplitGo env f t fuel (i + 1)

/-- The `for (split = 0; ...)` loop of `chunkLongAtom`. -/
def glyphSplit (env : ItEnv) (f : ℕ) (t : List Char) : ℕ :=
  glyphSplitGo env f t (env.M.numGlyphs f t + 1) 0

/-- `Iterator::chunkLongAtom`: consume the next wrap-width-sized piece
of `longAtom` (counts stored through the `uint16` cast), re-measure it,
and start a new line when asked. -/
def chunkLongIt (env : ItEnv) (st : ItState)
    (shouldStartNewLine : Bool) : Bool × ItState :=
  let numRemaining : ℤ :=
    (st.longAtom.atomText.length : ℤ) - (st.longAtom.numChars : ℤ)
  if numRemaining ≤ 0 then (false, st)
  else
    let t := st.longAtom.atomText.drop st.longAtom.numChars
    let st1 := { st with
      indexInText := st.indexInText + (st.longAtom.numChars : ℤ) }
    let sec := secAt env st1.sectionIndex
    let mt := maskedText env.passwordChar t
    let split := glyphSplit env sec.font mt
    let numChars := max 1 split
    let la : TextAtom := { atomText := t, numChars := u16 numChars
                           width := env.M.glyphRight sec.font mt (numChars - 1) }
    let st2 := { st1 with longAtom := la, atom := some la
                          atomX := getJustificationOffsetX env la.width }
    let st3 :=
      if shouldStartNewLine then
        if (split : ℤ) = numRemaining then beginNewLineIt env st2
        else { st2 with
          lineY := st2.lineY + st2.lineHeight * env.lineSpacing }
      else st2
    (true, { st3 with atomRight := st3.atomX + st3.longAtom.width })

/-- `Iterator::moveToEndOfLastAtom`. -/
def moveToEndIt (env : ItEnv) (st : ItState) : ItState :=
  match st.atom with
  | none => st
  | some a =>
    if a.isNewLine then
      { st with atomX := getJustificationOffsetX env 0
                lineY := st.lineY + st.lineHeight * env.lineSpacing }
    else { st with atomX := st.atomRight }

/-- The cross-section word-merge scan of `Iterator::next` (run when the
current section's last atom is not whitespace): accumulate the widths
of the following sections' first atoms; when the accumulated right edge
wraps, commit the accumulated line height and descent and force a new
line. -/
def mergeScan (env : ItEnv) :
    ℚ → ℚ → ℚ → List UniformTextSection → Bool × ℚ × ℚ
  | _, lh, md, [] => (false, lh, md)
  | rightX, lh, md, s :: rest =>
    match s.atoms with
    | [] => (false, lh, md)
    | na :: nas =>
      if na.isWhitespace then (false, lh, md)
      else
        let rightX2 := rightX + na.width
        let lh2 := max lh (env.M.fontHeight s.font)
        let md2 := max md (env.M.fontDescent s.font)
        if shouldWrapIt env rightX2 then (true, lh2, md2)
        else if nas ≠ [] then (false, lh, md)
        else mergeScan env rightX2 lh2 md2 rest

/-- Common tail of `Iterator::next` after the section bookkeeping:
leave the previous atom (starting a new line after a newline atom),
take up the atom at the current position, and handle wrapping. -/
def contIt (env : ItEnv) (st : ItState) (forceNewLine : Bool) :
    Bool × ItState :=
  let isInPreviousAtom :=
    match st.atom with | some a => !a.isNewLine | none => false
  let st1 :=
    match st.atom with
    | none => st
    | some a =>
      let st' := { st with
        atomX := st.atomRight
        indexInText := st.indexInText + (a.numChars : ℤ) }
      if a.isNewLine then beginNewLineIt env st' else st'
  let sec := secAt env st1.sectionIndex
  let newAtom := sec.atoms.getD st1.atomIndex dummyAtom
  let st2 := { st1 with atom := some newAtom, isLong := false
                        atomRight := st1.atomX + newAtom.width
                        atomIndex := st1.atomIndex + 1 }
  if shouldWrapIt env st2.atomRight ∨ forceNewLine then
    if newAtom.isWhitespace then
      (true, { st2 with atomRight := min st2.atomRight env.wordWrapWidth })
    else if shouldWrapIt env newAtom.width then
      let la0 := { newAtom with numChars := 0 }
      let stc := { st2 with isLong := true, longAtom := la0
                            atom := some la0 }
      (true, (chunkLongIt env stc isInPreviousAtom).2)
    else
      let st3 := beginNewLineIt env st2
      (true, { st3 with atomRight := st3.atomX + newAtom.width })
  else (true, st2)

/-- `Iterator::next` without the long-atom entry check. -/
def nextRest (env : ItEnv) (st : ItState) : Bool × ItState :=
  if st.sectionIndex ≥ env.sections.length then
    (false, moveToEndIt env st)
  else
    let sec0 := secAt env st.sectionIndex
    if (st.atomIndex : ℤ) ≥ (sec0.atoms.length : ℤ) - 1 then
      if st.atomIndex ≥ sec0.atoms.length then
        if st.sectionIndex + 1 ≥ env.sections.length then
          (false, moveToEndIt env
            { st with sectionIndex := st.sectionIndex + 1 })
        else
          contIt env
            { st with sectionIndex := st.sectionIndex + 1, atomIndex := 0 }
            false
      else
        let la := sec0.atoms.getD st.atomIndex dummyAtom
        if la.isWhitespace then contIt env st false
        else
          let q := mergeScan env (st.atomRight + la.width) st.lineHeight
            st.maxDescent (env.sections.drop (st.sectionIndex + 1))
          if q.1 then
            contIt env
              { st with lineHeight := q.2.1, maxDescent := q.2.2 } true
          else contIt env st false
    else contIt env st false

/-- `Iterator::next`. -/
def nextIt (env : ItEnv) (st : ItState) : Bool × ItState :=
  if st.isLong then
    let p := chunkLongIt env st true
    if p.1 then (true, p.2) else nextRest env p.2
  else nextRest env st

/-- The `Iterator` constructor: point at the first section (when any)
and begin the first line, then take the line height from the editor's
current font. -/
def initIt (env : ItEnv) : ItState :=
  let st0 : ItState :=
    { indexInText := 0, lineY := 0, lineHeight := 0, maxDescent := 0
      atomX := 0, atomRight := 0, atom := none, isLong := false
      longAtom := dummyAtom, sectionIndex := 0, atomIndex := 0 }
  let st1 := if env.sections = [] then st0 else beginNewLineIt env st0
  { st1 with lineHeight := env.M.fontHeight env.editorFont }

/-- `while (next()) {}` with fuel (each call consumes an atom or a
section boundary, so `itFuel` always suffices). -/
def runNextGo (env : ItEnv) : ℕ → ItState → ItState
  | 0, st => st
  | fuel + 1, st =>
    let p := nextIt env st
    if p.1 then runNextGo env fuel p.2 else p.2

/-- The `while (next())` loop of `Iterator::getYOffset`. -/
def getYOffsetGo (env : ItEnv) : ℕ → ItState → ℚ × ItState
  | 0, st => (0, st)
  | fuel + 1, st =>
    let p := nextIt env st
    if p.1 then
      if env.bottomRightY ≤ p.2.lineY then (0, p.2)
      else getYOffsetGo env fuel p.2
    else
      let bottomGap := max 0 (env.bottomRightY - p.2.lineY - p.2.lineHeight)
      (if env.just.bottom then bottomGap else bottomGap * (1/2), p.2)

/-- `Iterator::getYOffset` (also returns the mutated iterator). -/
def getYOffsetIt (env : ItEnv) (st : ItState) : ℚ × ItState :=
  if env.just.top = true ∨ env.bottomRightY ≤ st.lineY then (0, st)
  else getYOffsetGo env (itFuel env) st

/-- `Iterator::getTotalTextHeight`: exhaust the iterator, add the last
line's height and the vertical justification offset, and add one more
line height when the last atom is a newline. -/
def getTotalTextHeightIt (env : ItEnv) : ℤ :=
  let st1 := runNextGo env (itFuel env) (initIt env)
  let p := getYOffsetIt env st1
  let height := st1.lineY + st1.lineHeight + p.1
  let height2 :=
    if (match p.2.atom with
        | some a => a.isNewLine
        | none => false) = true
    then height + p.2.lineHeight else height
  roundToIntQ height2

/-- Number of newline atoms. -/
def nlCount (as : List TextAtom) : ℕ :=
  (as.filter (fun a => a.isNewLine)).length

theorem getD_drop {α : Type} : ∀ (l : List α) (j : ℕ) (d : α),
    l.getD j d = (l.drop j).headD d := by
  intro l
  induction l with
  | nil => intro j d; cases j <;> rfl
  | cons x xs ih =>
    intro j d
    cases j with
    | zero => rfl
    | succ j => simp only [List.getD_cons_succ, List.drop_succ_cons, ih j d]

theorem secAt_of_drop (env : ItEnv) (i : ℕ) (cs : UniformTextSection)
    (r : List UniformTextSection) (hdrop : env.sections.drop i = cs :: r) :
    secAt env i = cs := by
  unfold secAt
  rw [getD_drop, hdrop]
  rfl

theorem drop_head_lt_length {α : Type} (l : List α) (i : ℕ) (x : α)
    (r : List α) (hdrop : l.drop i = x :: r) : i < l.length := by
  by_contra hc
  rw [List.drop_of_length_le (by omega)] at hdrop
  simp at hdrop

/-- Every atom of a member section is an atom of the document. -/
theorem mem_atomsOf (ss : List UniformTextSection)
    (s : UniformTextSection) (a : TextAtom) (hs : s ∈ ss)
    (ha : a ∈ s.atoms) : a ∈ atomsOf ss := by
  unfold atomsOf
  rw [List.mem_flatten]
  exact ⟨s.atoms, List.mem_map_of_mem _ hs, ha⟩

/-- Sum of atom widths. -/
def wSum (as : List TextAtom) : ℚ := (as.map TextAtom.width).sum

theorem wSum_nil : wSum [] = 0 := rfl

theorem wSum_cons (a : TextAtom) (l : List TextAtom) :
    wSum (a :: l) = a.width + wSum l := by simp [wSum]

theorem wSum_append (l1 l2 : List TextAtom) :
    wSum (l1 ++ l2) = wSum l1 + wSum l2 := by simp [wSum]

theorem wSum_nonneg (l : List TextAtom)
    (h : ∀ a ∈ l, 0 ≤ a.width) : 0 ≤ wSum l := by
  induction l with
  | nil => simp [wSum_nil]
  | cons a l ih =>
    rw [wSum_cons]
    have := h a (by simp)
    have := ih (fun x hx => h x (by simp [hx]))
    linarith

theorem nlCount_nil : nlCount [] = 0 := rfl

theorem nlCount_cons (a : TextAtom) (l : List TextAtom) :
    nlCount (a :: l)
      = (if a.isNewLine then 1 else 0) + nlCount l := by
  simp only [nlCount, List.filter]
  cases h : a.isNewLine
  · simp [h]
  · simp [h]
    omega

theorem atomsOf_nil : atomsOf [] = [] := rfl

theorem atomsOf_cons (s : UniformTextSection)
    (ss : List UniformTextSection) :
    atomsOf (s :: ss) = s.atoms ++ atomsOf ss := by
  simp [atomsOf]

/-- `shouldWrap` is monotone, so nothing below a non-wrapping total can
wrap. -/
theorem notWrap_mono (env : ItEnv) (x y : ℚ)
    (hy : ¬ shouldWrapIt env y) (hxy : x ≤ y) :
    ¬ shouldWrapIt env x := by
  unfold shouldWrapIt at hy ⊢
  intro hx
  exact hy (by linarith)

/-- Under left-style justification the x offset is always 0. -/
theorem justOffset_zero (env : ItEnv)
    (hc : env.just.horizontallyCentred = false)
    (hr : env.just.rightJ = false) (lw : ℚ) :
    getJustificationOffsetX env lw = 0 := by
  unfold getJustificationOffsetX
  rw [hc, hr]
  simp

/-- With a uniform font height the `beginNewLine` scan always reports
that height. -/
theorem bnlGo_lineHeight (env : ItEnv) (h : ℚ)
    (hh : ∀ f, env.M.fontHeight f = h) :
    ∀ (fuel tsi tai : ℕ) (lw nlw md : ℚ),
    (bnlGo env fuel tsi tai lw nlw h md).2.1 = h := by
  intro fuel
  induction fuel with
  | zero => intro tsi tai lw nlw md; rfl
  | succ fuel ih =>
    intro tsi tai lw nlw md
    show (bnlGo env (fuel + 1) tsi tai lw nlw h md).2.1 = h
    rw [bnlGo]
    by_cases h1 : shouldWrapIt env nlw
    · rw [if_pos h1]
    · rw [if_neg h1]
      by_cases h2 : tsi ≥ env.sections.length
      · rw [if_pos h2]
      · rw [if_neg h2]
        by_cases h3 : tai ≥ (secAt env tsi).atoms.length
        · rw [if_pos h3]
          by_cases h4 : tsi + 1 ≥ env.sections.length
          · rw [if_pos h4]
          · rw [if_neg h4]
            by_cases h5 : 0 < (secAt env (tsi + 1)).atoms.length
            · rw [if_pos h5]
              by_cases h6 : shouldWrapIt env
                  (nlw + ((secAt env (tsi + 1)).atoms.getD 0
                    dummyAtom).width) ∨
                  ((secAt env (tsi + 1)).atoms.getD 0
                    dummyAtom).isNewLine
              · rw [if_pos h6]
              · rw [if_neg h6]
                rw [hh (secAt env (tsi + 1)).font, max_self]
                exact ih _ _ _ _ _
            · rw [if_neg h5]
          
        · rw [if_neg h3]
          by_cases h6 : shouldWrapIt env
              (nlw + ((secAt env tsi).atoms.getD tai dummyAtom).width) ∨
              ((secAt env tsi).atoms.getD tai dummyAtom).isNewLine
          · rw [if_pos h6]
          · rw [if_neg h6]
            exact ih _ _ _ _ _

/-- `beginNewLine` under the layout hypotheses: advance a line, reset
the line height to the uniform height, zero the x offset, touch nothing
else. -/
theorem beginNewLine_char (env : ItEnv) (h : ℚ)
    (hh : ∀ f, env.M.fontHeight f = h)
    (hc : env.just.horizontallyCentred = false)
    (hr : env.just.rightJ = false) (st : ItState) :
    ∃ md2, beginNewLineIt env st
      = { st with lineY := st.lineY + st.lineHeight * env.lineSpacing
                  lineHeight := h, maxDescent := md2, atomX := 0 } := by
  refine ⟨(beginNewLineIt env st).maxDescent, ?_⟩
  unfold beginNewLineIt
  dsimp only
  rw [hh (secAt env st.sectionIndex).font, bnlGo_lineHeight env h hh,
    justOffset_zero env hc hr]

/-- Under the no-wrap bound the cross-section merge scan never forces a
new line. -/
theorem mergeScan_false (env : ItEnv) :
    ∀ (ls : List UniformTextSection) (rightX lh md : ℚ),
    (∀ a ∈ atomsOf ls, 0 ≤ a.width) →
    ¬ shouldWrapIt env (rightX + wSum (atomsOf ls)) →
    (mergeScan env rightX lh md ls).1 = false := by
  intro ls
  induction ls with
  | nil => intro rightX lh md _ _; rfl
  | cons s rest ih =>
    intro rightX lh md hw hb
    show (mergeScan env rightX lh md (s :: rest)).1 = false
    rw [mergeScan]
    cases hat : s.atoms with
    | nil => rfl
    | cons na nas =>
      dsimp only
      by_cases h1 : na.isWhitespace
      · rw [if_pos h1]
      · rw [if_neg h1]
        have hna : na ∈ atomsOf (s :: rest) := by
          rw [atomsOf_cons, hat]
          simp
        have hrest : ∀ a ∈ atomsOf rest, 0 ≤ a.width := by
          intro a ha
          exact hw a (by rw [atomsOf_cons]; simp [ha])
        have hnn : 0 ≤ wSum nas := by
          refine wSum_nonneg nas ?_
          intro a ha
          exact hw a (by rw [atomsOf_cons, hat]; simp [ha])
        have hsum : rightX + na.width + wSum (atomsOf rest)
            ≤ rightX + wSum (atomsOf (s :: rest)) := by
          rw [atomsOf_cons, hat, wSum_append, wSum_cons]
          linarith
        have h2 : ¬ shouldWrapIt env (rightX + na.width) := by
          refine notWrap_mono env _ _ hb ?_
          have := wSum_nonneg (atomsOf rest) hrest
          linarith
        rw [if_neg h2]
        by_cases h3 : nas ≠ []
        · rw [if_pos h3]
        · rw [if_neg h3]
          exact ih (rightX + na.width) _ _ hrest
            (notWrap_mono env _ _ hb hsum)

/-- One delivery step of `next`'s common tail under the layout
hypotheses: leave the previous atom (advancing a line if it was a
newline), take up the atom at the current position, no wrapping
happens. -/
theorem contIt_step (env : ItEnv) (h : ℚ)
    (hh : ∀ f, env.M.fontHeight f = h)
    (hc : env.just.horizontallyCentred = false)
    (hr : env.just.rightJ = false) (hls : env.lineSpacing = 1)
    (it : ℤ) (ly md ax ar : ℚ) (A la : TextAtom) (i' j' : ℕ)
    (har0 : 0 ≤ ar)
    (hnw : ¬ shouldWrapIt env
      (ar + ((secAt env i').atoms.getD j' dummyAtom).width)) :
    ∃ md2 ax2, 0 ≤ ax2 ∧ ax2 ≤ ar ∧
    contIt env ⟨it, ly, h, md, ax, ar, some A, false, la, i', j'⟩ false
      = (true, ⟨it + (A.numChars : ℤ),
          ly + (if A.isNewLine then h else 0), h, md2, ax2,
          ax2 + ((secAt env i').atoms.getD j' dummyAtom).width,
          some ((secAt env i').atoms.getD j' dummyAtom), false, la,
          i', j' + 1⟩) := by
  cases hnl : A.isNewLine with
  | true =>
    obtain ⟨md2, hbnl⟩ := beginNewLine_char env h hh hc hr
      ⟨it + (A.numChars : ℤ), ly, h, md, ar, ar, some A, false, la, i', j'⟩
    refine ⟨md2, 0, le_refl 0, har0, ?_⟩
    unfold contIt
    dsimp only
    simp only [hnl, if_true, Bool.false_eq_true, or_false]
    rw [hbnl]
    dsimp only
    rw [hls, mul_one]
    rw [if_neg (show ¬ shouldWrapIt env
      (0 + ((secAt env i').atoms.getD j' dummyAtom).width) from
      notWrap_mono env _ _ hnw (by linarith))]
  | false =>
    refine ⟨md, ar, har0, le_refl ar, ?_⟩
    unfold contIt
    dsimp only
    simp only [hnl, Bool.false_eq_true, if_false, or_false, add_zero]
    rw [if_neg hnw]

/-- `next` at the end of the last section: move to the end of the last
atom and report completion. -/
theorem nextRest_end (env : ItEnv) (it : ℤ) (ly lh md ax ar : ℚ)
    (atomOpt : Option TextAtom) (il : Bool) (la : TextAtom) (i j : ℕ)
    (cs : UniformTextSection)
    (hilen : i < env.sections.length) (hsec : secAt env i = cs)
    (hj : cs.atoms.length ≤ j) (hlast : env.sections.length ≤ i + 1) :
    nextRest env ⟨it, ly, lh, md, ax, ar, atomOpt, il, la, i, j⟩
      = (false, moveToEndIt env
          ⟨it, ly, lh, md, ax, ar, atomOpt, il, la, i + 1, j⟩) := by
  unfold nextRest
  dsimp only
  rw [if_neg (by omega : ¬ i ≥ env.sections.length), hsec,
    if_pos (by omega : (j : ℤ) ≥ (cs.atoms.length : ℤ) - 1),
    if_pos (by omega : j ≥ cs.atoms.length),
    if_pos (by omega : i + 1 ≥ env.sections.length)]

/-- `next` at the end of a section with more sections following:
advance to the next section's first atom. -/
theorem nextRest_advance (env : ItEnv) (it : ℤ) (ly lh md ax ar : ℚ)
    (atomOpt : Option TextAtom) (il : Bool) (la : TextAtom) (i j : ℕ)
    (cs : UniformTextSection)
    (_hilen : i < env.sections.length) (hsec : secAt env i = cs)
    (hj : cs.atoms.length ≤ j) (hmore : i + 1 < env.sections.length) :
    nextRest env ⟨it, ly, lh, md, ax, ar, atomOpt, il, la, i, j⟩
      = contIt env ⟨it, ly, lh, md, ax, ar, atomOpt, il, la, i + 1, 0⟩
          false := by
  unfold nextRest
  dsimp only
  rw [if_neg (by omega : ¬ i ≥ env.sections.length), hsec,
    if_pos (by omega : (j : ℤ) ≥ (cs.atoms.length : ℤ) - 1),
    if_pos (by omega : j ≥ cs.atoms.length),
    if_neg (by omega : ¬ i + 1 ≥ env.sections.length)]

/-- `next` strictly inside a section (at least two atoms left): deliver
the next atom with no look-ahead. -/
theorem nextRest_mid (env : ItEnv) (it : ℤ) (ly lh md ax ar : ℚ)
    (atomOpt : Option TextAtom) (il : Bool) (la : TextAtom) (i j : ℕ)
    (cs : UniformTextSection)
    (hilen : i < env.sections.length) (hsec : secAt env i = cs)
    (hj : (j : ℤ) < (cs.atoms.length : ℤ) - 1) :
    nextRest env ⟨it, ly, lh, md, ax, ar, atomOpt, il, la, i, j⟩
      = contIt env ⟨it, ly, lh, md, ax, ar, atomOpt, il, la, i, j⟩
          false := by
  unfold nextRest
  dsimp only
  rw [if_neg (by omega : ¬ i ≥ env.sections.length), hsec,
    if_neg (by omega : ¬ (j : ℤ) ≥ (cs.atoms.length : ℤ) - 1)]

/-- `next` at a section's last atom: the cross-section merge scan runs
but (given it does not force a new line) the delivery is unchanged. -/
theorem nextRest_last (env : ItEnv) (it : ℤ) (ly lh md ax ar : ℚ)
    (atomOpt : Option TextAtom) (il : Bool) (la : TextAtom) (i j : ℕ)
    (cs : UniformTextSection)
    (hilen : i < env.sections.length) (hsec : secAt env i = cs)
    (hj : (j : ℤ) = (cs.atoms.length : ℤ) - 1)
    (hms : (mergeScan env (ar + (cs.atoms.getD j dummyAtom).width) lh md
      (env.sections.drop (i + 1))).1 = false) :
    nextRest env ⟨it, ly, lh, md, ax, ar, atomOpt, il, la, i, j⟩
      = contIt env ⟨it, ly, lh, md, ax, ar, atomOpt, il, la, i, j⟩
          false := by
  unfold nextRest
  dsimp only
  rw [if_neg (by omega : ¬ i ≥ env.sections.length), hsec,
    if_pos (by omega : (j : ℤ) ≥ (cs.atoms.length : ℤ) - 1),
    if_neg (by omega : ¬ j ≥ cs.atoms.length)]
  by_cases hws : (cs.atoms.getD j dummyAtom).isWhitespace
  · rw [if_pos hws]
  · rw [if_neg hws, hms]
    simp only [Bool.false_eq_true, if_false]

theorem atomsOf_subset (ss1 ss2 : List UniformTextSection)
    (h : ∀ s ∈ ss1, s ∈ ss2) :
    ∀ a ∈ atomsOf ss1, a ∈ atomsOf ss2 := by
  intro a ha
  unfold atomsOf at ha
  rw [List.mem_flatten] at ha
  obtain ⟨l, hl, hal⟩ := ha
  rw [List.mem_map] at hl
  obtain ⟨s, hs, rfl⟩ := hl
  exact mem_atomsOf ss2 s a (h s hs) hal

theorem lineY_step (ly h : ℚ) (A : TextAtom) (l : List TextAtom) :
    (ly + (if A.isNewLine then h else 0)) + h * (nlCount l : ℚ)
      = ly + h * (nlCount (A :: l) : ℚ) := by
  rw [nlCount_cons]
  push_cast
  by_cases hnl : A.isNewLine
  · rw [if_pos hnl, if_pos hnl]
    ring
  · rw [if_neg hnl, if_neg hnl]
    ring

/-- The exhaustion run of the iterator from any canonical mid-document
state (the iterator has just delivered atom `A`; `curTail` are the
atoms still to come in the current section, `restSecs` the sections
after it): every line advance adds exactly one uniform line height per
newline atom left behind, so at the end `lineY` has grown by the height
times the number of newline atoms among `A` and everything after it,
the line height is still the uniform height, and the iterator rests on
the document's last atom. -/
theorem runNext_run (env : ItEnv) (h : ℚ)
    (hh : ∀ f, env.M.fontHeight f = h)
    (hc : env.just.horizontallyCentred = false)
    (hr : env.just.rightJ = false) (hls : env.lineSpacing = 1)
    (hwid : ∀ a ∈ atomsOf env.sections, 0 ≤ a.width)
    (hnw : ¬ shouldWrapIt env (wSum (atomsOf env.sections)))
    (hsne : ∀ s ∈ env.sections, s.atoms ≠ []) :
    ∀ (fuel : ℕ) (restSecs : List UniformTextSection)
      (curTail : List TextAtom) (i j : ℕ) (cs : UniformTextSection)
      (it : ℤ) (ly md ax ar : ℚ) (A la : TextAtom),
    env.sections.drop i = cs :: restSecs →
    cs.atoms.drop j = curTail → j ≤ cs.atoms.length →
    0 ≤ ar →
    ar + wSum curTail + wSum (atomsOf restSecs)
      ≤ wSum (atomsOf env.sections) →
    curTail.length + (atomsOf restSecs).length + restSecs.length + 1
      ≤ fuel →
    (runNextGo env fuel
        ⟨it, ly, h, md, ax, ar, some A, false, la, i, j⟩).lineY
      = ly + h * (nlCount (A :: (curTail ++ atomsOf restSecs)) : ℚ) ∧
    (runNextGo env fuel
        ⟨it, ly, h, md, ax, ar, some A, false, la, i, j⟩).lineHeight
      = h ∧
    (runNextGo env fuel
        ⟨it, ly, h, md, ax, ar, some A, false, la, i, j⟩).atom
      = (A :: (curTail ++ atomsOf restSecs)).getLast? := by
  intro fuel
  induction fuel using Nat.strong_induction_on with
  | _ fuel IH =>
  intro restSecs curTail i j cs it ly md ax ar A la
    hdrop hj hjle har0 harW hfuel
  obtain ⟨f, rfl⟩ : ∃ f, fuel = f + 1 := ⟨fuel - 1, by omega⟩
  have hilen : i < env.sections.length :=
    drop_head_lt_length _ _ _ _ hdrop
  have hsec : secAt env i = cs := secAt_of_drop env i cs restSecs hdrop
  have hlen : cs.atoms.length = j + curTail.length := by
    have hcl := congrArg List.length hj
    rw [List.length_drop] at hcl
    omega
  have hdrop2 : env.sections.drop (i + 1) = restSecs := by
    rw [← List.tail_drop, hdrop]
    rfl
  have hcs : cs ∈ env.sections :=
    List.mem_of_mem_drop (hdrop ▸ List.mem_cons_self cs restSecs)
  have hcurw : ∀ a ∈ curTail, 0 ≤ a.width := by
    intro a ha
    rw [← hj] at ha
    exact hwid a (mem_atomsOf _ cs a hcs (List.mem_of_mem_drop ha))
  have hrestw : ∀ a ∈ atomsOf restSecs, 0 ≤ a.width := by
    intro a ha
    refine hwid a (atomsOf_subset restSecs env.sections ?_ a ha)
    intro s hs
    rw [← hdrop2] at hs
    exact List.mem_of_mem_drop hs
  have hni : nextIt env ⟨it, ly, h, md, ax, ar, some A, false, la, i, j⟩
      = nextRest env ⟨it, ly, h, md, ax, ar, some A, false, la, i, j⟩ :=
    rfl
  cases curTail with
  | nil =>
    cases restSecs with
    | nil =>
      have hjlen : cs.atoms.length ≤ j := by
        have := hlen
        simp only [List.length_nil] at this
        omega
      have hlast : env.sections.length ≤ i + 1 := by
        have hcl := congrArg List.length hdrop
        rw [List.length_drop] at hcl
        simp only [List.length_cons, List.length_nil] at hcl
        omega
      have hres : runNextGo env (f + 1)
          ⟨it, ly, h, md, ax, ar, some A, false, la, i, j⟩
          = moveToEndIt env
              ⟨it, ly, h, md, ax, ar, some A, false, la, i + 1, j⟩ := by
        simp only [runNextGo]
        rw [hni, nextRest_end env it ly h md ax ar (some A) false la i j
          cs hilen hsec hjlen hlast]
        simp
      rw [hres]
      unfold moveToEndIt
      dsimp only
      cases hnl : A.isNewLine with
      | true =>
        rw [if_pos rfl]
        refine ⟨?_, rfl, rfl⟩
        dsimp only
        rw [hls, mul_one]
        simp only [List.nil_append, atomsOf_nil, nlCount_cons,
          nlCount_nil, hnl, if_true]
        push_cast
        ring
      | false =>
        rw [if_neg (by simp)]
        refine ⟨?_, rfl, rfl⟩
        dsimp only
        simp only [List.nil_append, atomsOf_nil, nlCount_cons,
          nlCount_nil, hnl, Bool.false_eq_true, if_false]
        push_cast
        ring
    | cons s2 rest2 =>
      have hjlen : cs.atoms.length ≤ j := by
        have := hlen
        simp only [List.length_nil] at this
        omega
      have hmore : i + 1 < env.sections.length :=
        drop_head_lt_length _ _ _ _ hdrop2
      have hsec2 : secAt env (i + 1) = s2 :=
        secAt_of_drop env (i + 1) s2 rest2 hdrop2
      have hw2 : 0 ≤ (s2.atoms.getD 0 dummyAtom).width := by
        cases hat : s2.atoms with
        | nil => simp [dummyAtom]
        | cons b bs =>
          refine hrestw _ ?_
          rw [atomsOf_cons, hat]
          simp
      have hnw2 : ¬ shouldWrapIt env
          (ar + (s2.atoms.getD 0 dummyAtom).width) := by
        refine notWrap_mono env _ _ hnw ?_
        cases hat : s2.atoms with
        | nil =>
          have h0 : (([] : List TextAtom).getD 0 dummyAtom).width = 0 := rfl
          rw [h0]
          have := wSum_nonneg _ hrestw
          rw [wSum_nil] at harW
          linarith
        | cons b bs =>
          have hb : (((b :: bs) : List TextAtom).getD 0 dummyAtom).width
              = b.width := rfl
          rw [hb]
          have hbs : 0 ≤ wSum bs := by
            refine wSum_nonneg _ ?_
            intro a ha
            refine hrestw a ?_
            rw [atomsOf_cons, hat]
            simp [ha]
          have hr2 : 0 ≤ wSum (atomsOf rest2) := by
            refine wSum_nonneg _ ?_
            intro a ha
            refine hrestw a ?_
            rw [atomsOf_cons]
            simp [ha]
          rw [wSum_nil] at harW
          rw [atomsOf_cons, hat] at harW
          rw [wSum_append, wSum_cons] at harW
          linarith
      obtain ⟨md2, ax2, hax0, haxar, hcont⟩ := contIt_step env h hh hc hr
        hls it ly md ax ar A la (i + 1) 0 har0 (by rw [hsec2]; exact hnw2)
      have hres : runNextGo env (f + 1)
          ⟨it, ly, h, md, ax, ar, some A, false, la, i, j⟩
          = runNextGo env f
              ⟨it + (A.numChars : ℤ),
                ly + (if A.isNewLine then h else 0), h, md2, ax2,
                ax2 + ((secAt env (i + 1)).atoms.getD 0 dummyAtom).width,
                some ((secAt env (i + 1)).atoms.getD 0 dummyAtom), false,
                la, i + 1, 0 + 1⟩ := by
        simp only [runNextGo]
        rw [hni, nextRest_advance env it ly h md ax ar (some A) false la
          i j cs hilen hsec hjlen hmore, hcont]
        simp
      cases hat : s2.atoms with
      | nil =>
        exfalso
        refine hsne s2 ?_ hat
        exact List.mem_of_mem_drop (hdrop2 ▸ List.mem_cons_self s2 rest2)
      | cons b bs =>
        have hgd : (secAt env (i + 1)).atoms.getD 0 dummyAtom = b := by
          rw [hsec2, hat]; rfl
        have hIH := IH f (by omega) rest2 bs (i + 1) 1 s2
          (it + (A.numChars : ℤ)) (ly + (if A.isNewLine then h else 0))
          md2 ax2 (ax2 + b.width) b la hdrop2
          (by rw [hat]; rfl) (by rw [hat]; simp)
          (by have := hrestw b (by rw [atomsOf_cons, hat]; simp); linarith)
          (by
            rw [atomsOf_cons, hat] at harW
            rw [wSum_nil] at harW
            rw [wSum_append, wSum_cons] at harW
            linarith)
          (by
            rw [atomsOf_cons, hat] at hfuel
            simp only [List.length_nil, List.length_append,
              List.length_cons] at hfuel ⊢
            omega)
        rw [hres, hgd]
        refine ⟨?_, hIH.2.1, ?_⟩
        · rw [hIH.1, lineY_step]
          simp only [List.nil_append, atomsOf_cons, hat]
          rfl
        · rw [hIH.2.2]
          simp only [List.nil_append, atomsOf_cons, hat]
          rw [List.cons_append, List.getLast?_cons_cons]
  | cons a2 rest' =>
    have hgd : cs.atoms.getD j dummyAtom = a2 := by
      rw [getD_drop, hj]; rfl
    have ha2w : 0 ≤ a2.width := hcurw a2 (by simp)
    have hrw : 0 ≤ wSum rest' :=
      wSum_nonneg _ (fun a ha => hcurw a (by simp [ha]))
    have hRw : 0 ≤ wSum (atomsOf restSecs) := wSum_nonneg _ hrestw
    have hnwa : ¬ shouldWrapIt env (ar + a2.width) := by
      refine notWrap_mono env _ _ hnw ?_
      rw [wSum_cons] at harW
      linarith
    have hcont0 : nextRest env
        ⟨it, ly, h, md, ax, ar, some A, false, la, i, j⟩
        = contIt env ⟨it, ly, h, md, ax, ar, some A, false, la, i, j⟩
            false := by
      cases rest' with
      | nil =>
        refine nextRest_last env it ly h md ax ar (some A) false la i j
          cs hilen hsec (by simp at hlen; omega) ?_
        rw [hgd, hdrop2]
        refine mergeScan_false env restSecs (ar + a2.width) h md hrestw ?_
        refine notWrap_mono env _ _ hnw ?_
        rw [wSum_cons, wSum_nil] at harW
        linarith
      | cons a3 rest'' =>
        refine nextRest_mid env it ly h md ax ar (some A) false la i j
          cs hilen hsec (by simp at hlen; omega)
    obtain ⟨md2, ax2, hax0, haxar, hcont⟩ := contIt_step env h hh hc hr
      hls it ly md ax ar A la i j har0 (by rw [hsec, hgd]; exact hnwa)
    have hres : runNextGo env (f + 1)
        ⟨it, ly, h, md, ax, ar, some A, false, la, i, j⟩
        = runNextGo env f
            ⟨it + (A.numChars : ℤ),
              ly + (if A.isNewLine then h else 0), h, md2, ax2,
              ax2 + ((secAt env i).atoms.getD j dummyAtom).width,
              some ((secAt env i).atoms.getD j dummyAtom), false,
              la, i, j + 1⟩ := by
      simp only [runNextGo]
      rw [hni, hcont0, hcont]
      simp
    have hIH := IH f (by omega) restSecs rest' i (j + 1) cs
      (it + (A.numChars : ℤ)) (ly + (if A.isNewLine then h else 0))
      md2 ax2 (ax2 + a2.width) a2 la hdrop
      (by rw [← List.drop_drop, hj]; rfl)
      (by have := hlen; simp only [List.length_cons] at this; omega)
      (by linarith)
      (by rw [wSum_cons] at harW; linarith)
      (by simp only [List.length_cons] at hfuel; omega)
    rw [hres, hsec, hgd]
    refine ⟨?_, hIH.2.1, ?_⟩
    · rw [hIH.1, lineY_step]
      rfl
    · rw [hIH.2.2]
      rw [show (A :: (a2 :: rest' ++ atomsOf restSecs)).getLast?
          = (a2 :: (rest' ++ atomsOf restSecs)).getLast? from
        List.getLast?_cons_cons]

/-- The very first `next` delivery (no previous atom): take up the atom
at the current position, no wrapping. -/
theorem contIt_first (env : ItEnv) (it : ℤ) (ly lh md ax ar : ℚ)
    (la : TextAtom) (i' j' : ℕ)
    (hnw : ¬ shouldWrapIt env
      (ax + ((secAt env i').atoms.getD j' dummyAtom).width)) :
    contIt env ⟨it, ly, lh, md, ax, ar, none, false, la, i', j'⟩ false
      = (true, ⟨it, ly, lh, md, ax,
          ax + ((secAt env i').atoms.getD j' dummyAtom).width,
          some ((secAt env i').atoms.getD j' dummyAtom), false, la,
          i', j' + 1⟩) := by
  unfold contIt
  dsimp only
  rw [if_neg (show ¬ (shouldWrapIt env
      (ax + ((secAt env i').atoms.getD j' dummyAtom).width) ∨
      false = true) from fun hx => hx.elim hnw (by simp))]

/-- The iterator's total layout height in closed form: with top-left
justification, line spacing 1, a uniform font height, an unbounded wrap
width (nothing wraps) and non-empty atom lists, the height is the
uniform height times (newline atoms + 1), plus one extra line height
when the document's last atom is a newline (`moveToEndOfLastAtom` has
already advanced `lineY` past it and `getTotalTextHeight` adds
`lineHeight` for it again). -/
theorem totalHeight_general (env : ItEnv) (h : ℚ)
    (htop : env.just.top = true)
    (hc : env.just.horizontallyCentred = false)
    (hr : env.just.rightJ = false)
    (hls : env.lineSpacing = 1)
    (hh : ∀ f, env.M.fontHeight f = h)
    (hwid : ∀ a ∈ atomsOf env.sections, 0 ≤ a.width)
    (hnw : ¬ shouldWrapIt env (wSum (atomsOf env.sections)))
    (hsne : ∀ s ∈ env.sections, s.atoms ≠ []) :
    getTotalTextHeightIt env
      = roundToIntQ (h * ((nlCount (atomsOf env.sections) : ℚ) + 1)
          + (if ((atomsOf env.sections).getLastD dummyAtom).isNewLine
             then h else 0)) := by
  unfold getTotalTextHeightIt
  dsimp only
  cases hE : env.sections with
  | nil =>
    have hinit : initIt env
        = { indexInText := 0, lineY := 0,
            lineHeight := env.M.fontHeight env.editorFont, maxDescent := 0
            atomX := 0, atomRight := 0, atom := none, isLong := false
            longAtom := dummyAtom, sectionIndex := 0, atomIndex := 0 } := by
      unfold initIt
      dsimp only
      rw [if_pos hE]
    have hstep : nextIt env
        ⟨0, 0, env.M.fontHeight env.editorFont, 0, 0, 0, none, false,
          dummyAtom, 0, 0⟩
        = (false, ⟨0, 0, env.M.fontHeight env.editorFont, 0, 0, 0, none,
            false, dummyAtom, 0, 0⟩) := by
      show nextRest env _ = _
      unfold nextRest
      rw [if_pos (by rw [hE]; exact Nat.le_refl 0)]
      rfl
    have hrun : runNextGo env (itFuel env) (initIt env)
        = ⟨0, 0, env.M.fontHeight env.editorFont, 0, 0, 0, none, false,
            dummyAtom, 0, 0⟩ := by
      obtain ⟨F, hF⟩ : ∃ F, itFuel env = F + 1 :=
        ⟨itFuel env - 1, by unfold itFuel; omega⟩
      rw [hF, hinit]
      simp only [runNextGo]
      rw [hstep]
      simp
    rw [hrun]
    rw [show getYOffsetIt env ⟨0, 0, env.M.fontHeight env.editorFont, 0,
        0, 0, none, false, dummyAtom, 0, 0⟩
      = (0, ⟨0, 0, env.M.fontHeight env.editorFont, 0, 0, 0, none, false,
          dummyAtom, 0, 0⟩) from by
        unfold getYOffsetIt
        rw [if_pos (Or.inl htop)]]
    dsimp only
    rw [hh env.editorFont]
    simp only [Bool.false_eq_true, if_false, atomsOf_nil, nlCount_nil,
      List.getLastD_nil]
    simp only [show dummyAtom.isNewLine = false from rfl,
      Bool.false_eq_true, if_false]
    congr 1
    push_cast
    ring
  | cons cs0 rest0 =>
    cases hat : cs0.atoms with
    | nil =>
      exfalso
      exact hsne cs0 (by rw [hE]; simp) hat
    | cons a1 as1 =>
      have hw1 : 0 ≤ a1.width := by
        refine hwid a1 ?_
        rw [hE, atomsOf_cons, hat]
        simp
      have hsec0 : secAt env 0 = cs0 := by
        refine secAt_of_drop env 0 cs0 rest0 ?_
        rw [List.drop_zero, hE]
      have hgd0 : (secAt env 0).atoms.getD 0 dummyAtom = a1 := by
        rw [hsec0, hat]
        rfl
      have htotsum : wSum (atomsOf env.sections)
          = a1.width + wSum as1 + wSum (atomsOf rest0) := by
        rw [hE, atomsOf_cons, hat, List.cons_append, wSum_cons,
          wSum_append]
        ring
      have has1w : 0 ≤ wSum as1 := by
        refine wSum_nonneg _ ?_
        intro a ha
        refine hwid a ?_
        rw [hE, atomsOf_cons, hat]
        simp [ha]
      have hrest0w : 0 ≤ wSum (atomsOf rest0) := by
        refine wSum_nonneg _ ?_
        intro a ha
        refine hwid a ?_
        rw [hE, atomsOf_cons]
        simp [ha]
      obtain ⟨md0, hbnl0⟩ := beginNewLine_char env h hh hc hr
        ⟨0, 0, 0, 0, 0, 0, none, false, dummyAtom, 0, 0⟩
      have hinit : initIt env
          = ⟨0, 0 + 0 * env.lineSpacing, h, md0, 0, 0, none, false,
              dummyAtom, 0, 0⟩ := by
        unfold initIt
        dsimp only
        rw [if_neg (by rw [hE]; simp), hbnl0]
        dsimp only
        rw [hh env.editorFont]
      have hnwfirst : ¬ shouldWrapIt env
          (0 + ((secAt env 0).atoms.getD 0 dummyAtom).width) := by
        rw [hgd0]
        refine notWrap_mono env _ _ hnw ?_
        rw [htotsum]
        linarith
      have hcont1 : nextRest env
          ⟨0, 0 + 0 * env.lineSpacing, h, md0, 0, 0, none, false,
            dummyAtom, 0, 0⟩
          = contIt env ⟨0, 0 + 0 * env.lineSpacing, h, md0, 0, 0, none,
              false, dummyAtom, 0, 0⟩ false := by
        cases has1 : as1 with
        | nil =>
          refine nextRest_last env _ _ _ _ _ _ _ _ _ 0 0 cs0
            (by rw [hE]; simp) hsec0
            (by rw [hat, has1]; simp) ?_
          rw [show cs0.atoms.getD 0 dummyAtom = a1 from by rw [hat]; rfl]
          rw [show env.sections.drop (0 + 1) = rest0 from by
            rw [hE]; rfl]
          refine mergeScan_false env rest0 (0 + a1.width) h md0 ?_ ?_
          · intro a ha
            refine hwid a ?_
            rw [hE, atomsOf_cons]
            simp [ha]
          · refine notWrap_mono env _ _ hnw ?_
            rw [htotsum, has1, wSum_nil]
            linarith
        | cons a3 as3 =>
          refine nextRest_mid env _ _ _ _ _ _ _ _ _ 0 0 cs0
            (by rw [hE]; simp) hsec0
            (by rw [hat, has1]; simp)
      have hfirst : nextIt env
          ⟨0, 0 + 0 * env.lineSpacing, h, md0, 0, 0, none, false,
            dummyAtom, 0, 0⟩
          = (true, ⟨0, 0 + 0 * env.lineSpacing, h, md0, 0, 0 + a1.width,
              some a1, false, dummyAtom, 0, 0 + 1⟩) := by
        show nextRest env _ = _
        rw [hcont1, contIt_first env _ _ _ _ _ _ _ 0 0 hnwfirst, hgd0]
      obtain ⟨F, hF⟩ : ∃ F, itFuel env = F + 1 :=
        ⟨itFuel env - 1, by unfold itFuel; omega⟩
      have hFbound : as1.length + (atomsOf rest0).length
          + rest0.length + 1 ≤ F := by
        have : itFuel env = (atomsOf env.sections).length
            + env.sections.length + 2 := rfl
        rw [hE, atomsOf_cons, hat] at this
        simp only [List.length_append, List.length_cons] at this
        omega
      have hrun1 : runNextGo env (itFuel env) (initIt env)
          = runNextGo env F
              ⟨0, 0 + 0 * env.lineSpacing, h, md0, 0, 0 + a1.width,
                some a1, false, dummyAtom, 0, 0 + 1⟩ := by
        rw [hF, hinit]
        rw [runNextGo, hfirst]
        simp
      have hRUN := runNext_run env h hh hc hr hls hwid hnw hsne F rest0
        as1 0 (0 + 1) cs0 0 (0 + 0 * env.lineSpacing) md0 0
        (0 + a1.width) a1 dummyAtom
        (by rw [List.drop_zero, hE])
        (by rw [hat]; rfl)
        (by rw [hat]; simp)
        (by linarith)
        (by rw [htotsum]; linarith)
        hFbound
      rw [hrun1]
      have hatoms_eq : a1 :: (as1 ++ atomsOf rest0)
          = atomsOf (cs0 :: rest0) := by
        rw [atomsOf_cons, hat, List.cons_append]
      rw [show getYOffsetIt env (runNextGo env F
            ⟨0, 0 + 0 * env.lineSpacing, h, md0, 0, 0 + a1.width,
              some a1, false, dummyAtom, 0, 0 + 1⟩)
          = (0, runNextGo env F
              ⟨0, 0 + 0 * env.lineSpacing, h, md0, 0, 0 + a1.width,
                some a1, false, dummyAtom, 0, 0 + 1⟩) from by
        unfold getYOffsetIt
        rw [if_pos (Or.inl htop)]]
      dsimp only
      rw [hRUN.1, hRUN.2.1]
      have hmatch : (match (runNextGo env F
          ⟨0, 0 + 0 * env.lineSpacing, h, md0, 0, 0 + a1.width,
            some a1, false, dummyAtom, 0, 0 + 1⟩).atom with
          | some a => a.isNewLine
          | none => false)
          = ((atomsOf (cs0 :: rest0)).getLastD dummyAtom).isNewLine := by
        rw [hRUN.2.2]
        cases hgl : (a1 :: (as1 ++ atomsOf rest0)).getLast? with
        | none => simp at hgl
        | some x =>
          dsimp only
          have hgld : (a1 :: (as1 ++ atomsOf rest0)).getLastD dummyAtom
              = x := by
            rw [List.getLastD_eq_getLast?, hgl]
            rfl
          rw [← hatoms_eq, hgld]
      rw [hmatch, hatoms_eq]
      by_cases hB : ((atomsOf (cs0 :: rest0)).getLastD
          dummyAtom).isNewLine = true
      · rw [if_pos hB, if_pos hB]
        congr 1
        ring
      · rw [if_neg hB, if_neg hB]
        congr 1
        ring

/-- Claim C5 (amended): with top-left justification, line spacing 1, a
uniform font height, an unbounded wrap width (nothing wraps), sections
whose atom lists are non-empty, and a document whose last atom is not a
newline, the iterator's total layout height is
`lineHeight * (number of newline atoms + 1)`.  For documents ending in
a newline atom the iterator reports one extra line height. -/
theorem c5_layout_height (env : ItEnv) (h : ℚ)
    (htop : env.just.top = true)
    (hc : env.just.horizontallyCentred = false)
    (hr : env.just.rightJ = false)
    (hls : env.lineSpacing = 1)
    (hh : ∀ f, env.M.fontHeight f = h)
    (hwid : ∀ a ∈ atomsOf env.sections, 0 ≤ a.width)
    (hnw : ¬ shouldWrapIt env (wSum (atomsOf env.sections)))
    (hsne : ∀ s ∈ env.sections, s.atoms ≠ [])
    (hlastnl : ((atomsOf env.sections).getLastD dummyAtom).isNewLine
      = false) :
    getTotalTextHeightIt env
      = roundToIntQ (h * ((nlCount (atomsOf env.sections) : ℚ) + 1)) := by
  rw [totalHeight_general env h htop hc hr hls hh hwid hnw hsne]
  simp only [hlastnl, Bool.false_eq_true, if_false, add_zero]

/-- A concrete no-wrap layout environment for the document `"a\nb"`
(one section, three atoms, uniform height 1, top-left justification,
line spacing 1, effectively unbounded wrap width). -/
def c5good : ItEnv :=
  { M := Mc
    sections := [{ font := 1, colour := 0, passwordChar := jw0
                   atoms := [{ atomText := ['a'], width := 1, numChars := 1 },
                             { atomText := ['\n'], width := 0, numChars := 1 },
                             { atomText := ['b'], width := 1, numChars := 1 }] }]
    just := { horizontallyCentred := false, rightJ := false
              top := true, bottom := false }
    bottomRightX := 1000000
    bottomRightY := 1000000
    wordWrapWidth := 2147483647
    passwordChar := jw0
    lineSpacing := 1
    editorFont := 1 }

theorem c5good_wid : ∀ a ∈ atomsOf c5good.sections, 0 ≤ a.width := by
  intro a ha
  simp only [c5good, atomsOf_cons, atomsOf_nil, List.append_nil,
    List.mem_cons, List.not_mem_nil, or_false] at ha
  rcases ha with rfl | rfl | rfl <;> norm_num

theorem c5good_sum : wSum (atomsOf c5good.sections) = 2 := by
  simp only [c5good, atomsOf_cons, atomsOf_nil, List.append_nil,
    wSum_cons, wSum_nil]
  norm_num

theorem c5good_nw : ¬ shouldWrapIt c5good (wSum (atomsOf c5good.sections)) := by
  unfold shouldWrapIt
  rw [c5good_sum]
  show ¬ c5good.wordWrapWidth ≤ 2 - 1/10000
  norm_num [c5good]

theorem c5good_sne : ∀ s ∈ c5good.sections, s.atoms ≠ [] := by
  intro s hs
  simp only [c5good, List.mem_cons, List.not_mem_nil, or_false] at hs
  subst hs
  simp

/-- C5 witness: the amended layout-height formula at the concrete
document `"a\nb"` (one newline atom, height 2). -/
theorem c5_layout_height_witness :
    (c5good.just.top = true ∧ c5good.just.horizontallyCentred = false ∧
      c5good.just.rightJ = false ∧ c5good.lineSpacing = 1 ∧
      (∀ f, c5good.M.fontHeight f = 1) ∧
      (∀ a ∈ atomsOf c5good.sections, 0 ≤ a.width) ∧
      ¬ shouldWrapIt c5good (wSum (atomsOf c5good.sections)) ∧
      (∀ s ∈ c5good.sections, s.atoms ≠ []) ∧
      ((atomsOf c5good.sections).getLastD dummyAtom).isNewLine = false) ∧
    getTotalTextHeightIt c5good
      = roundToIntQ (1 * ((nlCount (atomsOf c5good.sections) : ℚ) + 1)) :=
  ⟨⟨rfl, rfl, rfl, rfl, fun _ => rfl, c5good_wid, c5good_nw, c5good_sne,
    rfl⟩,
   c5_layout_height c5good 1 rfl rfl rfl rfl (fun _ => rfl) c5good_wid
     c5good_nw c5good_sne rfl⟩

/-- The same environment for the document `"a\n"`, whose last atom is a
newline. -/
def c5bad : ItEnv :=
  { M := Mc
    sections := [{ font := 1, colour := 0, passwordChar := jw0
                   atoms := [{ atomText := ['a'], width := 1, numChars := 1 },
                             { atomText := ['\n'], width := 0, numChars := 1 }] }]
    just := { horizontallyCentred := false, rightJ := false
              top := true, bottom := false }
    bottomRightX := 1000000
    bottomRightY := 1000000
    wordWrapWidth := 2147483647
    passwordChar := jw0
    lineSpacing := 1
    editorFont := 1 }

theorem c5bad_wid : ∀ a ∈ atomsOf c5bad.sections, 0 ≤ a.width := by
  intro a ha
  simp only [c5bad, atomsOf_cons, atomsOf_nil, List.append_nil,
    List.mem_cons, List.not_mem_nil, or_false] at ha
  rcases ha with rfl | rfl <;> norm_num

theorem c5bad_nw : ¬ shouldWrapIt c5bad (wSum (atomsOf c5bad.sections)) := by
  unfold shouldWrapIt
  rw [show wSum (atomsOf c5bad.sections) = 1 from by
    simp only [c5bad, atomsOf_cons, atomsOf_nil, List.append_nil,
      wSum_cons, wSum_nil]
    norm_num]
  show ¬ c5bad.wordWrapWidth ≤ 1 - 1/10000
  norm_num [c5bad]

theorem c5bad_sne : ∀ s ∈ c5bad.sections, s.atoms ≠ [] := by
  intro s hs
  simp only [c5bad, List.mem_cons, List.not_mem_nil, or_false] at hs
  subst hs
  simp

/-- Claim C5 counterexample: on `"a\n"` (uniform line height 1, no
wrapping, line spacing 1) the iterator reports total height 3, not
`lineHeight * (newline atoms + 1) = 2`: `moveToEndOfLastAtom` advances
`lineY` past the trailing newline and `getTotalTextHeight` then adds
`lineHeight` for it a second time. -/
theorem c5_layout_height_counterexample :
    getTotalTextHeightIt c5bad
      ≠ roundToIntQ ((c5bad.M.fontHeight c5bad.editorFont)
          * ((nlCount (atomsOf c5bad.sections) : ℚ) + 1)) := by
  rw [totalHeight_general c5bad 1 rfl rfl rfl rfl (fun _ => rfl)
    c5bad_wid c5bad_nw c5bad_sne]
  rw [show ((atomsOf c5bad.sections).getLastD dummyAtom).isNewLine
    = true from rfl]
  rw [show nlCount (atomsOf c5bad.sections) = 1 from rfl]
  rw [show c5bad.M.fontHeight c5bad.editorFont = 1 from rfl]
  simp only [if_true]
  unfold roundToIntQ
  norm_num
